import Mathlib

/-!
Verification of the multiple-sequence-alignment engine (`msa.c`).

This file gives a shallow embedding of the alignment data model and the
structural algorithms of `msa.c` (phast), and proves / refutes the frozen
claims about them.  Rows of an alignment are modelled as `List Char`; the
in-place C transforms become pure functions from `MSA` to `MSA`.
-/

namespace Msa

/-- `GAP_CHAR` from `msa.h` (the gap placeholder; the spec's gap symbol). -/
def GAP_CHAR : Char := '-'

/-- `DEFAULT_ALPHABET` for DNA (`msa.h`): the valid non-gap, non-missing
symbols. -/
def DEFAULT_ALPHABET : List Char := ['A', 'C', 'G', 'T']

/-- Modelled from the spec: `DEFAULT_MDATA_CHARS`, the default missing-data
character set, lives in the missing header `msa.h`.  The spec and the code's
comments (`msa_partition_by_category`: columns of "missing data" characters
(Ns)) identify its first element — the canonical missing-data symbol — as
`'N'`; any further members are not pinned down by the available source, so
the model keeps the set minimal. -/
def DEFAULT_MDATA_CHARS : List Char := ['N']

/-- The MSA object (`struct msa` of `msa.h`), explicit-matrix view only:
`seqs` holds `nseqs` rows, each of `length` characters; `categories` is the
optional per-column category array.  The compressed ("sufficient statistics")
view is an external collaborator and is not materialized here, matching the
`ss == NULL` code paths of `msa.c`. -/
@[ext]
structure MSA where
  seqs : List (List Char)
  names : List String
  nseqs : Nat
  length : Nat
  alphabet : List Char
  missing : List Char
  categories : Option (List Int)
  ncats : Int
deriving Repr, DecidableEq

/-- Well-formedness of the explicit character matrix: the row count and the
row lengths agree with the stored `nseqs` and `length` fields. -/
def MSA.WF (msa : MSA) : Prop :=
  msa.seqs.length = msa.nseqs ∧ msa.names.length = msa.nseqs ∧
    ∀ row ∈ msa.seqs, row.length = msa.length

instance (msa : MSA) : Decidable msa.WF := by
  unfold MSA.WF; infer_instance

/-- `msa_new`: build an MSA from rows and names (alphabet defaulted when
absent; missing set is always the default). -/
def msa_new (seqs : List (List Char)) (names : List String)
    (nseqs length : Nat) (alphabet : Option (List Char)) : MSA :=
  { seqs := seqs
    names := names
    nseqs := nseqs
    length := length
    alphabet := alphabet.getD DEFAULT_ALPHABET
    missing := DEFAULT_MDATA_CHARS
    categories := none
    ncats := -1 }

/-- Character access `seq[i]` on a NUL-terminated C row: positions past the
row read the terminator `'\x00'` (negative positions never occur in the
modelled executions). -/
def getCh (row : List Char) (i : Int) : Char :=
  if i < 0 then Char.ofNat 0 else row.getD i.toNat (Char.ofNat 0)

/-! ## Reverse complement (`msa_compl_char`, `msa_reverse_compl`) -/

/-- `msa_compl_char`: A↔T, C↔G, all other characters unchanged. -/
def msa_compl_char (c : Char) : Char :=
  if c = 'A' then 'T'
  else if c = 'C' then 'G'
  else if c = 'G' then 'C'
  else if c = 'T' then 'A'
  else c

/-- `msa_reverse_compl_seq`: the in-place symmetric swap loop assigns
`seq[i] = compl(old seq[length-i-1])` for every position `i` (both halves of
each swap, and the middle element of an odd-length row, have this form), so
its denotation is complement-then-reverse. -/
def msa_reverse_compl_seq (seq : List Char) : List Char :=
  (seq.map msa_compl_char).reverse

/-- `msa_reverse_compl` on an explicit-matrix alignment (`ss == NULL` path):
reverse-complement every row in place. -/
def msa_reverse_compl (msa : MSA) : MSA :=
  { msa with seqs := msa.seqs.map msa_reverse_compl_seq }

/-! ## Concatenation (`msa_concatenate`) -/

/-- `msa_concatenate`: append `source`'s first `source.length` characters of
each row onto the corresponding row of `aggregate` (the copy loop runs
`i < source_msa->length`); the aggregate's length grows by `source.length`.
Requires equal row counts (the C `assert`); allocation growth is not
modelled. -/
def msa_concatenate (aggregate source : MSA) : MSA :=
  { aggregate with
    seqs := aggregate.seqs.zipWith
      (fun arow srow => arow ++ srow.take source.length) source.seqs
    length := aggregate.length + source.length }

/-! ## Gap stripping (`msa_strip_gaps`, `msa_project`) -/

/-- The two pure stripping modes of `msa_strip_gaps` (`msa.h` constants
`STRIP_ALL_GAPS` / `STRIP_ANY_GAPS`); a positive mode value instead requests
a projection and dispatches to `msa_project`. -/
inductive GapStripMode where
  | strip_all_gaps
  | strip_any_gaps
deriving Repr, DecidableEq

/-- Whether column `i` is stripped: in ANY mode a column containing a gap in
any row, in ALL mode a column containing only gaps (the early-exit scan of
the C loop computes exactly this). -/
def stripCol (msa : MSA) (mode : GapStripMode) (i : Nat) : Bool :=
  match mode with
  | .strip_any_gaps => msa.seqs.any (fun row => row.getD i GAP_CHAR = GAP_CHAR)
  | .strip_all_gaps => msa.seqs.all (fun row => row.getD i GAP_CHAR = GAP_CHAR)

/-- `msa_strip_gaps` (explicit-matrix path): keep exactly the columns not
selected by `stripCol`, compacting rows (and the category array, when
present) in lockstep and updating `length`. -/
def msa_strip_gaps (msa : MSA) (mode : GapStripMode) : MSA :=
  let keep := (List.range msa.length).filter (fun i => ! stripCol msa mode i)
  { msa with
    seqs := msa.seqs.map (fun row => keep.map (fun i => row.getD i GAP_CHAR))
    categories := msa.categories.map (fun cats =>
      keep.map (fun i => cats.getD i 0))
    length := keep.length }

/-! ## Coding-sequence cleaning (`msa_coding_clean`) -/

/-- `KEEP_STOP_CODONS` (top of `msa.c`): whether stop codons are retained
when cleaning an alignment of coding sequences.  The source sets it to 0. -/
def KEEP_STOP_CODONS : Bool := false

/-- The `IS_START` macro: `seq[i] seq[i+1] seq[i+2]` spell `ATG` (case
insensitive). -/
def IS_START (s : List Char) (i : Int) : Bool :=
  (getCh s i).toUpper == 'A' && (getCh s (i + 1)).toUpper == 'T' &&
    (getCh s (i + 2)).toUpper == 'G'

/-- The `IS_STOP` macro: `TAA`, `TAG` or `TGA` (case insensitive). -/
def IS_STOP (s : List Char) (i : Int) : Bool :=
  (getCh s i).toUpper == 'T' &&
    (((getCh s (i + 1)).toUpper == 'A' &&
        ((getCh s (i + 2)).toUpper == 'A' ||
          (getCh s (i + 2)).toUpper == 'G')) ||
      ((getCh s (i + 1)).toUpper == 'G' && (getCh s (i + 2)).toUpper == 'A'))

/-- Forward gap skip (`for (; i < length && ref[i] == GAP_CHAR; i++)`);
fueled so that it evaluates by structural recursion (callers pass more
fuel than `len - i`, so exhaustion is unreachable). -/
def skipGapsFwdAux (ref : List Char) (len : Int) : Nat → Int → Int
  | 0, i => i
  | fuel + 1, i =>
    if i < len ∧ getCh ref i = GAP_CHAR then
      skipGapsFwdAux ref len fuel (i + 1)
    else i

/-- Forward gap skip from `i`. -/
def skipGapsFwd (ref : List Char) (len i : Int) : Int :=
  skipGapsFwdAux ref len ((len - i).toNat + 1) i

/-- Backward gap skip (`for (; i > beg && ref[i] == GAP_CHAR; i--)`),
fueled like `skipGapsFwdAux`. -/
def skipGapsBwdAux (ref : List Char) (beg : Int) : Nat → Int → Int
  | 0, i => i
  | fuel + 1, i =>
    if beg < i ∧ getCh ref i = GAP_CHAR then
      skipGapsBwdAux ref beg fuel (i - 1)
    else i

/-- Backward gap skip from `i`. -/
def skipGapsBwd (ref : List Char) (beg i : Int) : Int :=
  skipGapsBwdAux ref beg ((i - beg).toNat + 1) i

/-- The start-codon search of `msa_coding_clean`: read the first three
non-gap characters of the reference row, recording `beg` (position of the
first) and the index `i` after the last character read.  `beg` defaults to
0 when the row is all gaps (the C variable is left uninitialized, and is
then never meaningfully used because the alignment is rejected). -/
def findStartCodon (ref : List Char) (len : Int) : Int × Int × List Char :=
  let i0 := skipGapsFwd ref len 0
  if i0 = len then (0, i0, [])
  else
    let i1 := skipGapsFwd ref len (i0 + 1)
    if i1 = len then (i0, i1, [getCh ref i0])
    else
      let i2 := skipGapsFwd ref len (i1 + 1)
      if i2 = len then (i0, i2, [getCh ref i0, getCh ref i1])
      else (i0, i2 + 1, [getCh ref i0, getCh ref i1, getCh ref i2])

/-- The stop-codon search of `msa_coding_clean` with
`KEEP_STOP_CODONS = 0`: walk back from the last column collecting the
last three non-gap characters, then set `end` to the last non-gap position
before them (the stop codon itself is excluded).  Returns
`(end, codon, brokeEarly)`; `end` defaults to 0 when the scan reaches
`beg` (uninitialized in C, never meaningfully used because the alignment
is rejected). -/
def findStopCodon (ref : List Char) (len beg : Int) :
    Int × List Char × Bool :=
  let i2 := skipGapsBwd ref beg (len - 1)
  if i2 = beg then (0, [], true)
  else
    let i1 := skipGapsBwd ref beg (i2 - 1)
    if i1 = beg then (0, [getCh ref i2], true)
    else
      let i0 := skipGapsBwd ref beg (i1 - 1)
      if i0 = beg then (0, [getCh ref i1, getCh ref i2], true)
      else
        let iEnd := skipGapsBwd ref beg (i0 - 1)
        if iEnd = beg then (0, [getCh ref i0, getCh ref i1, getCh ref i2],
          true)
        else (iEnd, [getCh ref i0, getCh ref i1, getCh ref i2], false)

/-- Whether any row has a gap in column `i`. -/
def colHasGap (seqs : List (List Char)) (i : Int) : Bool :=
  seqs.any (fun row => getCh row i = GAP_CHAR)

/-- Increment each row's gap counter when that row has a gap at column
`i`. -/
def bumpNgaps (seqs : List (List Char)) (i : Int) (ngaps : List Nat) :
    List Nat :=
  List.zipWith (fun row g => if getCh row i = GAP_CHAR then g + 1 else g)
    seqs ngaps

/-- The inner scan of `msa_coding_clean`:
`while (i <= end) { count gaps of column i; break on a gapless in-frame
codon column; advance, maintaining frame wrt the reference row }`.
Returns `(i, frame, ngaps, found)`.  `fuel` bounds the iteration count;
callers pass more than `end - i + 1`, so exhaustion is unreachable. -/
def findCodonCol (seqs : List (List Char)) (ref : List Char) (endP : Int) :
    Nat → Int → Int → Bool → List Nat → Int × Int × List Nat × Bool
  | 0, i, frame, _, ngaps => (i, frame, ngaps, false)
  | fuel + 1, i, frame, gapless, ngaps =>
    if i > endP then (i, frame, ngaps, false)
    else
      let ngaps1 := bumpNgaps seqs i ngaps
      let gapless1 := gapless && ! colHasGap seqs i
      if gapless1 && frame == 2 then (i, frame, ngaps1, true)
      else
        if getCh ref (i + 1) ≠ GAP_CHAR then
          if frame + 1 = 3 then
            findCodonCol seqs ref endP fuel (i + 1) 0 true ngaps1
          else
            findCodonCol seqs ref endP fuel (i + 1) (frame + 1) gapless1
              ngaps1
        else findCodonCol seqs ref endP fuel (i + 1) frame gapless1 ngaps1

/-- `for (i++; i <= end; i++)` stopping at the first column containing a
gap (or at `end + 1`). -/
def findGapCol (seqs : List (List Char)) (endP : Int) : Nat → Int → Int
  | 0, i => i
  | fuel + 1, i =>
    if i > endP then i
    else if colHasGap seqs i then i
    else findGapCol seqs endP fuel (i + 1)

/-- The in-frame stop-codon scan over a block
(`for (j = blk_beg; j <= blk_end - 2 && trunc == 0; j += 3)`): the first
codon start `j` at which some row spells a stop codon. -/
def scanStops (seqs : List (List Char)) (endP : Int) :
    Nat → Int → Option Int
  | 0, _ => none
  | n + 1, j =>
    if KEEP_STOP_CODONS ∧ j = endP - 2 then none
    else if seqs.any (fun row => IS_STOP row j) then some j
    else scanStops seqs endP n (j + 3)

/-- The main block-finding loop of `msa_coding_clean`: find maximal
gapless in-frame codon blocks of at least `min_ncodons` codons, enforcing
start codons in every row on the first block, frame consistency of the
per-row gap counts (mod 3) against the reference row between retained
blocks, and truncation at in-frame stop codons.  Returns the retained
`(blk_beg, blk_end)` list and the truncation position (0 = none).
`fuel` bounds the outer iterations; each iteration advances `i`, so
callers passing more than `end - beg + 2` never exhaust it. -/
def codingCleanLoop (seqs : List (List Char)) (ref : List Char)
    (nseqs : Nat) (beg endP : Int) (min_ncodons : Int) (refseq : Nat) :
    Nat → Int → Int → List Nat → List (Int × Int) →
      List (Int × Int) × Int
  | 0, _, _, _, blocks => (blocks, 0)
  | fuel + 1, i, frame, ngaps, blocks =>
    if i > endP then (blocks, 0)
    else
      let fc := findCodonCol seqs ref endP ((endP - i).toNat + 2) i frame
        true ngaps
      if ¬ fc.2.2.2 then (blocks, 0)
      else
        let blk_beg := fc.1 - 2
        let iG := findGapCol seqs endP ((endP - fc.1).toNat + 2) (fc.1 + 1)
        let blk_size := (iG - blk_beg) / 3
        let blk_end := blk_beg + blk_size * 3 - 1
        let frame2 : Int := if getCh ref (blk_end + 1) ≠ GAP_CHAR then 0
          else 2
        if blk_size ≥ min_ncodons then
          if blk_beg = beg ∧
              ¬ (seqs.all (fun row => IS_START row blk_beg)) then
            codingCleanLoop seqs ref nseqs beg endP min_ncodons refseq fuel
              (blk_end + 1) frame2 fc.2.2.1 blocks
          else if blk_end = endP ∧ KEEP_STOP_CODONS ∧
              ¬ (seqs.all (fun row => IS_STOP row (blk_end - 2))) then
            codingCleanLoop seqs ref nseqs beg endP min_ncodons refseq fuel
              (blk_end + 1) frame2 fc.2.2.1 blocks
          else
            let trunc1 : Int :=
              if blocks ≠ [] ∧
                  ¬ (fc.2.2.1.all (fun g =>
                    g % 3 = (fc.2.2.1.getD refseq 0) % 3)) then
                ((blocks.getLast?).map Prod.snd).getD 0 + 1
              else 0
            let stop := if trunc1 = 0 then
                scanStops seqs endP blk_size.toNat blk_beg
              else none
            let trunc2 : Int :=
              match stop with
              | some j => if KEEP_STOP_CODONS then j + 2 else j - 1
              | none => trunc1
            let blk_end2 : Int :=
              match stop with
              | some j => if KEEP_STOP_CODONS then j + 2 else j - 1
              | none => blk_end
            let blocks2 := if trunc2 = 0 ∨ trunc2 > blk_beg then
                blocks ++ [(blk_beg, blk_end2)]
              else blocks
            if trunc2 ≠ 0 then (blocks2, trunc2)
            else
              codingCleanLoop seqs ref nseqs beg endP min_ncodons refseq
                fuel (blk_end + 1) frame2 (List.replicate nseqs 0) blocks2
        else
          codingCleanLoop seqs ref nseqs beg endP min_ncodons refseq fuel
            (blk_end + 1) frame2 fc.2.2.1 blocks

/-- The reference row of `msa_coding_clean` (`refseq` is a 0-based row
index here, unlike the coordinate-map functions). -/
def ccRef (msa : MSA) (refseq : Nat) : List Char :=
  msa.seqs.getD refseq []

/-- The start-codon phase of `msa_coding_clean` on an alignment. -/
def ccStart (msa : MSA) (refseq : Nat) : Int × Int × List Char :=
  findStartCodon (ccRef msa refseq) (msa.length : Int)

/-- Whether the start-codon check fails: the scan ran off the end of the
alignment, or the collected codon is not a start codon. -/
def ccStartFail (msa : MSA) (refseq : Nat) : Bool :=
  (ccStart msa refseq).2.1 == (msa.length : Int) ||
    ! IS_START (ccStart msa refseq).2.2 0

/-- The stop-codon phase of `msa_coding_clean` on an alignment. -/
def ccEnd (msa : MSA) (refseq : Nat) : Int × List Char × Bool :=
  findStopCodon (ccRef msa refseq) (msa.length : Int) (ccStart msa refseq).1

/-- Whether the stop-codon check fails. -/
def ccStopFail (msa : MSA) (refseq : Nat) : Bool :=
  (ccEnd msa refseq).2.2 || ! IS_STOP (ccEnd msa refseq).2.1 0

/-- The retained blocks and truncation position: the main loop runs only
when neither codon check failed (the C loop is guarded by
`retval != 1`). -/
def ccBT (msa : MSA) (refseq : Nat) (min_ncodons : Int) :
    List (Int × Int) × Int :=
  if ccStartFail msa refseq || ccStopFail msa refseq then ([], 0)
  else
    codingCleanLoop msa.seqs (ccRef msa refseq) msa.nseqs
      (ccStart msa refseq).1 (ccEnd msa refseq).1 min_ncodons refseq
      (((ccEnd msa refseq).1 - (ccStart msa refseq).1).toNat + 2)
      (ccStart msa refseq).1 0 (List.replicate msa.nseqs 0) []

/-- The return value of `msa_coding_clean`: 1 when a codon check failed,
when nothing survived cleaning, or when a truncation point lies before the
last 20% of the reference span; 0 otherwise.  The C compares
`trunc < beg + (end - beg + 1) * 0.8` with a double; the model uses the
exact rational comparison `5*trunc < 5*beg + 4*(end - beg + 1)`. -/
def ccRetval (msa : MSA) (refseq : Nat) (min_ncodons : Int) : Nat :=
  if ccStartFail msa refseq || ccStopFail msa refseq then 1
  else if (ccBT msa refseq min_ncodons).1 = [] then 1
  else if (ccBT msa refseq min_ncodons).2 ≠ 0 ∧
      5 * (ccBT msa refseq min_ncodons).2 <
        5 * (ccStart msa refseq).1 +
          ((ccEnd msa refseq).1 - (ccStart msa refseq).1 + 1) * 4 then 1
  else 0

/-- The final overwrite of `msa_coding_clean`: concatenate the retained
blocks' columns, in order, into each row, and shrink `length` to the total
span. -/
def ccRewrite (msa : MSA) (refseq : Nat) (min_ncodons : Int) : MSA :=
  { msa with
    seqs := msa.seqs.map (fun row =>
      (ccBT msa refseq min_ncodons).1.foldl
        (fun (acc : List Char) (be : Int × Int) =>
          acc ++ ((row.drop be.1.toNat).take (be.2 - be.1 + 1).toNat)) [])
    length := ((ccBT msa refseq min_ncodons).1.foldl
      (fun (acc : Int) (be : Int × Int) => acc + (be.2 - be.1 + 1))
      0).toNat }

/-- The error messages appended by `msa_coding_clean`; `errstr` is
modelled as the list of appended strings. -/
def startMsg : String := "Reference sequence does not begin with start codon.  "

/-- The stop-codon failure message. -/
def stopMsg : String := "Reference sequence does not end with stop codon."

/-- The nothing-left failure message. -/
def nothingMsg : String := "Nothing left after cleaning."

/-- The prefix of the early-truncation failure message (followed by the
1-based truncation position and a period). -/
def truncMsgPre : String :=
  "In-frame stop codon or frame shift not in last 20% of alignment.  See approx. position "

/-- The error string after the start-codon check. -/
def ccErr1 (msa : MSA) (refseq : Nat) (errstr : List String) :
    List String :=
  if ccStartFail msa refseq then errstr ++ [startMsg] else errstr

/-- The error string after the stop-codon check. -/
def ccErr2 (msa : MSA) (refseq : Nat) (errstr : List String) :
    List String :=
  if ccStopFail msa refseq then ccErr1 msa refseq errstr ++ [stopMsg]
  else ccErr1 msa refseq errstr

/-- The error string after the nothing-left check. -/
def ccErr3 (msa : MSA) (refseq : Nat) (min_ncodons : Int)
    (errstr : List String) : List String :=
  if ¬ (ccStartFail msa refseq || ccStopFail msa refseq) ∧
      (ccBT msa refseq min_ncodons).1 = [] then
    ccErr2 msa refseq errstr ++ [nothingMsg]
  else ccErr2 msa refseq errstr

/-- The error string after the early-truncation check. -/
def ccErr4 (msa : MSA) (refseq : Nat) (min_ncodons : Int)
    (errstr : List String) : List String :=
  if (ccBT msa refseq min_ncodons).2 ≠ 0 ∧
      5 * (ccBT msa refseq min_ncodons).2 <
        5 * (ccStart msa refseq).1 +
          ((ccEnd msa refseq).1 - (ccStart msa refseq).1 + 1) * 4 then
    ccErr3 msa refseq min_ncodons errstr ++
      [truncMsgPre, toString ((ccBT msa refseq min_ncodons).2 + 1), "."]
  else ccErr3 msa refseq min_ncodons errstr

/-- `msa_coding_clean`: returns the C return value (0 success, 1
rejection), the resulting alignment (rewritten to the retained blocks on
success, untouched on rejection — the C only overwrites under
`retval != 1`), and the error string. -/
def msa_coding_clean (msa : MSA) (refseq : Nat) (min_ncodons : Int)
    (errstr : List String) : Nat × MSA × List String :=
  if ccRetval msa refseq min_ncodons ≠ 1 then
    (ccRetval msa refseq min_ncodons, ccRewrite msa refseq min_ncodons,
      ccErr4 msa refseq min_ncodons errstr)
  else
    (ccRetval msa refseq min_ncodons, msa,
      ccErr4 msa refseq min_ncodons errstr)

/-- The alignment of C2: one row spelling `ATGAAATAA`. -/
def msaCC2 : MSA :=
  msa_new [['A', 'T', 'G', 'A', 'A', 'A', 'T', 'A', 'A']] ["s"] 1 9 none

/-- An alignment whose reference row begins `AAA`, missing the start
codon. -/
def msaCC3 : MSA :=
  msa_new [['A', 'A', 'A', 'T', 'A', 'A']] ["s"] 1 6 none

/-! ## File-reading character normalization (`msa_new_from_file`,
`msa_read_fasta`) -/

/-- `msa_alph_has_lowercase`: whether the alphabet contains a lowercase
letter. -/
def msa_alph_has_lowercase (msa : MSA) : Bool :=
  msa.alphabet.any (fun c => 'a' ≤ c ∧ c ≤ 'z')

/-- The case normalization both readers apply first: upper-case the
character unless the alphabet has lowercase letters
(`do_toupper = !msa_alph_has_lowercase`). -/
def readerBase (msa : MSA) (c : Char) : Char :=
  if msa_alph_has_lowercase msa then c else c.toUpper

/-- The per-character normalization of the interleaved (PHYLIP/MPM) body
of `msa_new_from_file` (whitespace already skipped): a `'.'` outside the
alphabet becomes the canonical missing-data character; otherwise a
non-gap, non-missing character outside the alphabet becomes `'N'` when
alphabetic, and is a fatal format error (`none`, the `die` call) when
not. -/
def msa_new_from_file_char (msa : MSA) (c : Char) : Option Char :=
  if readerBase msa c = '.' ∧ '.' ∉ msa.alphabet then
    some (msa.missing.headD 'N')
  else if readerBase msa c ≠ GAP_CHAR ∧ readerBase msa c ∉ msa.missing ∧
      readerBase msa c ∉ msa.alphabet then
    (if (readerBase msa c).isAlpha then some 'N' else none)
  else some (readerBase msa c)

/-- The `'.'`-to-missing-data step of `msa_read_fasta`'s per-character
scan. -/
def fastaDotStep (msa : MSA) (c : Char) : Char :=
  if readerBase msa c = '.' ∧ '.' ∉ msa.alphabet then msa.missing.headD 'N'
  else readerBase msa c

/-- The per-character normalization of `msa_read_fasta`: after case and
`'.'` handling, an alphabetic character outside the alphabet becomes
`'N'`; everything else — including unrecognized non-alphabetic
characters — is kept unchanged (no error path). -/
def msa_read_fasta_char (msa : MSA) (c : Char) : Char :=
  if (fastaDotStep msa c).isAlpha ∧ fastaDotStep msa c ∉ msa.alphabet
  then 'N'
  else fastaDotStep msa c

/-- An empty alignment carrying the default alphabet and missing set. -/
def msaDefault : MSA := msa_new [] [] 0 0 none

/-! ## Row reordering (`msa_get_seq_idx`, `msa_reorder_rows`) -/

/-- The scan of `msa_get_seq_idx`: index of the first list entry equal to
`name`, or `-1` when absent. -/
def findNameIdx : List String → String → Int
  | [], _ => -1
  | n :: ns, name =>
    if n = name then 0
    else if findNameIdx ns name < 0 then -1 else findNameIdx ns name + 1

/-- `msa_get_seq_idx`: sequence index of the given sequence name, or `-1`
if not found. -/
def msa_get_seq_idx (msa : MSA) (name : String) : Int :=
  findNameIdx msa.names name

/-- `msa_reorder_rows` (explicit-matrix path): remap rows into the target
name order, synthesizing a row of the missing-data character
(`msa->missing[0]`) for every target name absent from the alignment.
`none` models the two aborts: the `assert` that prohibits two target
entries resolving to the same row, and the `exit(1)` when some row's name
is not covered by the target order. -/
def msa_reorder_rows (msa : MSA) (target_order : List String) : Option MSA :=
  let new_to_old := target_order.map (fun s => msa_get_seq_idx msa s)
  if ¬ (new_to_old.filter (fun v => 0 ≤ v)).Nodup then none
  else if ¬ (∀ i ∈ List.range msa.nseqs, (i : Int) ∈ new_to_old) then none
  else some { msa with
    names := (target_order.zip new_to_old).map
      (fun sv => if 0 ≤ sv.2 then msa.names.getD sv.2.toNat "" else sv.1)
    seqs := new_to_old.map (fun v =>
      if 0 ≤ v then msa.seqs.getD v.toNat []
      else List.replicate msa.length (msa.missing.headD 'N'))
    nseqs := target_order.length }

/-! ## Category labeling (`msa_label_categories`) -/

/-- Modelled from the spec: `BACKGD_CAT_NAME` (header `category_map.h`, not
under src) is the designated background feature-type name. -/
def BACKGD_CAT_NAME : String := "background"

/-- A GFF feature as consumed by `msa_label_categories` (external `gff.h`):
1-based start/end coordinates in the frame of the whole alignment, a
feature-type name, a strand and a declared reading frame.  The C field
`end` is called `endPos` here (`end` is a Lean keyword). -/
structure GFF_Feature where
  seqname : String
  feature : String
  start : Int
  endPos : Int
  strand : Char
  frame : Int

/-- The category-map interface consumed by `msa_label_categories`
(external collaborator `category_map.c`, not under src; modelled from the
spec: converts feature-type names to integer category ids, exposes a
labelling-precedence order per category — `-1` meaning "no precedence" —
and marks cyclic category ranges via `ranges` with
`start_cat_no`/`end_cat_no`). -/
structure CategoryMap where
  ncats : Int
  ranges : Int → Int × Int
  labelling_precedence : Int → Int
  catOf : String → Int

/-- The per-column loop of the non-cyclic branch of `msa_label_categories`:
for `n` columns starting at 1-based column `j`, install `cat` wherever the
existing label has no precedence or `cat`'s precedence is numerically
lower. -/
def labelColsNC (cm : CategoryMap) (cat : Int) :
    List Int → Int → Nat → List Int
  | cats, _, 0 => cats
  | cats, j, n + 1 =>
    let oldprec := cm.labelling_precedence (cats.getD (j - 1).toNat 0)
    let newprec := cm.labelling_precedence cat
    labelColsNC cm cat
      (if oldprec = -1 ∨ (newprec ≠ -1 ∧ newprec < oldprec)
       then cats.set (j - 1).toNat cat else cats)
      (j + 1) n

/-- The per-column loop of the cyclic branch of `msa_label_categories`:
the strand- and frame-adjusted offset from the feature start selects the
sub-category within the cyclic range by modulo arithmetic. -/
def labelColsCyc (cm : CategoryMap) (cat : Int) (strand : Char)
    (fstart fend frm : Int) : List Int → Int → Nat → List Int
  | cats, _, 0 => cats
  | cats, j, n + 1 =>
    let range_size := (cm.ranges cat).2 - (cm.ranges cat).1 + 1
    let offset := if strand = '-' then fend - j else j - fstart
    let thiscat := (cm.ranges cat).1 + (offset + frm) % range_size
    let oldprec := cm.labelling_precedence (cats.getD (j - 1).toNat 0)
    let thisprec := cm.labelling_precedence thiscat
    labelColsCyc cm cat strand fstart fend frm
      (if oldprec = -1 ∨ (thisprec ≠ -1 ∧ thisprec < oldprec)
       then cats.set (j - 1).toNat thiscat else cats)
      (j + 1) n

/-- `msa_label_categories`: initialize every column's category to 0
("other"/background), then process the features in order: skip features of
unrecognized type (category 0 under a non-background name) and out-of-range
features (`start`/`end` of `-1`, or `end ≥ length`); label the covered
columns through the non-cyclic or cyclic branch according to the feature's
category range. -/
def msa_label_categories (msa : MSA) (gff : List GFF_Feature)
    (cm : CategoryMap) : MSA :=
  let final := gff.foldl (fun cats feat =>
    if cm.catOf feat.feature = 0 ∧ feat.feature ≠ BACKGD_CAT_NAME then cats
    else if feat.start = -1 ∨ feat.endPos = -1 ∨
        feat.endPos ≥ (msa.length : Int) then cats
    else if (cm.ranges (cm.catOf feat.feature)).1
        = (cm.ranges (cm.catOf feat.feature)).2 then
      labelColsNC cm (cm.catOf feat.feature) cats feat.start
        (feat.endPos - feat.start + 1).toNat
    else
      labelColsCyc cm (cm.catOf feat.feature) feat.strand feat.start
        feat.endPos
        (if feat.frame < 0 ∨ feat.frame > 2 then 0 else feat.frame) cats
        feat.start (feat.endPos - feat.start + 1).toNat)
    (List.replicate msa.length (0 : Int))
  { msa with categories := some final, ncats := cm.ncats }

/-- A concrete category map for exercising `msa_label_categories`: names
"a" and "b" map to the non-cyclic categories 1 and 2 with labelling
precedences 1 and 2; the background category 0 also has a defined
precedence 0. -/
def cmEx : CategoryMap :=
  { ncats := 2
    ranges := fun c => (c, c)
    labelling_precedence := fun c =>
      if c = 0 then 0 else if c = 1 then 1 else if c = 2 then 2 else -1
    catOf := fun str => if str = "a" then 1 else if str = "b" then 2 else 0 }

/-- Like `cmEx` but with no precedence defined for the background
category. -/
def cmEx2 : CategoryMap :=
  { ncats := 2
    ranges := fun c => (c, c)
    labelling_precedence := fun c =>
      if c = 1 then 1 else if c = 2 then 2 else -1
    catOf := fun str => if str = "a" then 1 else if str = "b" then 2 else 0 }

/-- A concrete feature of type "a" covering columns 1-2. -/
def featA : GFF_Feature :=
  { seqname := "s", feature := "a", start := 1, endPos := 2,
    strand := '+', frame := 0 }

/-- A concrete feature of type "b" covering columns 1-2. -/
def featB : GFF_Feature :=
  { seqname := "s", feature := "b", start := 1, endPos := 2,
    strand := '+', frame := 0 }

/-- A concrete one-row alignment of length 3 for category labeling. -/
def msaEx6 : MSA := msa_new [['A', 'C', 'G']] ["s"] 1 3 none

/-! ## Coordinate map (`msa_coord_map`, `msa_build_coord_map`,
`msa_map_seq_to_msa`, `msa_map_msa_to_seq`) -/

/-- The coordinate-map object (`msa_coord_map` of `msa.h`): parallel anchor
lists of 1-based alignment positions and 1-based ungapped-sequence positions
at which each maximal non-gap run of the reference row begins. -/
structure msa_coord_map where
  msa_list : List Int
  seq_list : List Int
  msa_len : Int
  seq_len : Int
deriving Repr, DecidableEq

/-- Modelled from the spec: `lst_bsearch_int` (external list library,
`lists.c`) is the binary search used to find the governing anchor — on a
sorted list it returns the index of the rightmost element `≤ val`, or `-1`
when every element exceeds `val` (or the list is empty).  On a sorted list
that index is the number of elements `≤ val`, minus one. -/
def lst_bsearch_int (l : List Int) (v : Int) : Int :=
  (l.countP (fun x => decide (x ≤ v)) : Int) - 1

/-- The number of non-gap characters of a row (the final value of the
counter `j` in `msa_build_coord_map`, i.e. the ungapped length). -/
def nongapCount (row : List Char) : Nat :=
  row.countP (fun c => ! decide (c = GAP_CHAR))

/-- The left-to-right anchor scan of `msa_build_coord_map`: `i` is the
0-based alignment position, `j` the count of non-gap characters seen so far,
`lastGap` the `last_char_gap` flag.  At each non-gap character immediately
preceded by a gap (or the start), push the anchor pair `(i+1, j+1)` of
1-based alignment / sequence positions. -/
def coordAnchors : List Char → Int → Int → Bool → List (Int × Int)
  | [], _, _, _ => []
  | c :: cs, i, j, lastGap =>
    if c = GAP_CHAR then coordAnchors cs (i + 1) j true
    else if lastGap then (i + 1, j + 1) :: coordAnchors cs (i + 1) (j + 1) false
    else coordAnchors cs (i + 1) (j + 1) false

/-- `msa_build_coord_map msa refseq` (refseq is 1-based): scan the reference
row, recording anchors; `msa_len` is the alignment length and `seq_len` the
ungapped length of the reference row. -/
def msa_build_coord_map (msa : MSA) (refseq : Nat) : msa_coord_map :=
  let row := msa.seqs.getD (refseq - 1) []
  let anchors := coordAnchors row 0 0 true
  { msa_list := anchors.map Prod.fst
    seq_list := anchors.map Prod.snd
    msa_len := (msa.length : Int)
    seq_len := (nongapCount row : Int) }

/-- `msa_map_seq_to_msa`: sequence coordinate to MSA coordinate (1-based);
`-1` when out of `[1, seq_len]`.  The C locals `idx`,
`prec_match_msa_pos`, `prec_match_seq_pos` are inlined.  The C code
`assert`s that the binary search succeeds; the model returns `-1` on that
unreachable branch. -/
def msa_map_seq_to_msa (map : msa_coord_map) (seq_pos : Int) : Int :=
  if seq_pos < 1 ∨ seq_pos > map.seq_len then -1
  else if lst_bsearch_int map.seq_list seq_pos < 0 then -1
  else
    map.msa_list.getD (lst_bsearch_int map.seq_list seq_pos).toNat 0 +
      (seq_pos -
        map.seq_list.getD (lst_bsearch_int map.seq_list seq_pos).toNat 0)

/-- The `next_match_seq_pos` local of `msa_map_msa_to_seq`: the sequence
position of the anchor after `idx`, or `seq_len + 1` when `idx` is the last
anchor. -/
def nextMatchSeqPos (map : msa_coord_map) (idx : Int) : Int :=
  if idx < (map.seq_list.length : Int) - 1 then
    map.seq_list.getD (idx.toNat + 1) 0
  else map.seq_len + 1

/-- `msa_map_msa_to_seq`: MSA coordinate to sequence coordinate (1-based);
`-1` when out of `[1, msa_len]` or when no anchor governs the position
(e.g. a leading gap).  A coordinate falling strictly inside a gap run of
the reference sequence (computed position reaching the next anchor's
sequence position) is clamped to the position immediately preceding the
gap.  The C locals are inlined. -/
def msa_map_msa_to_seq (map : msa_coord_map) (msa_pos : Int) : Int :=
  if msa_pos < 1 ∨ msa_pos > map.msa_len then -1
  else if lst_bsearch_int map.msa_list msa_pos < 0 then -1
  else if map.seq_list.getD (lst_bsearch_int map.msa_list msa_pos).toNat 0 +
      (msa_pos -
        map.msa_list.getD (lst_bsearch_int map.msa_list msa_pos).toNat 0) ≥
      nextMatchSeqPos map (lst_bsearch_int map.msa_list msa_pos) then
    nextMatchSeqPos map (lst_bsearch_int map.msa_list msa_pos) - 1
  else
    map.seq_list.getD (lst_bsearch_int map.msa_list msa_pos).toNat 0 +
      (msa_pos -
        map.msa_list.getD (lst_bsearch_int map.msa_list msa_pos).toNat 0)

/-! ## Concrete example inputs used by witnesses -/

/-- A concrete aggregate alignment for exercising `msa_concatenate`. -/
def concatExA : MSA := msa_new [['A', 'C'], ['G', '-']] ["s1", "s2"] 2 2 none

/-- A concrete source alignment for exercising `msa_concatenate`. -/
def concatExB : MSA := msa_new [['T'], ['A']] ["s1", "s2"] 2 1 none

/-- A concrete alignment (one row `-A-CG`) for exercising the coordinate
map. -/
def coordEx : MSA := msa_new [['-', 'A', '-', 'C', 'G']] ["s"] 1 5 none

/-- A concrete two-row alignment for exercising `msa_reorder_rows`. -/
def reorderEx : MSA :=
  msa_new [['A', 'C'], ['G', 'T']] ["s1", "s2"] 2 2 none

end Msa

namespace Msa

/-! ## List helper lemmas -/

theorem getD_range_map (l : List α) (d : α) :
    (List.range l.length).map (fun i => l.getD i d) = l := by
  apply List.ext_getElem
  · simp
  · intro i h1 h2
    simp only [List.getElem_map, List.getElem_range]
    exact List.getD_eq_getElem l d h2

/-! ## Theorems: C5 (reverse complement involution) -/

theorem msa_compl_char_invol (c : Char) :
    msa_compl_char (msa_compl_char c) = c := by
  unfold msa_compl_char
  by_cases h1 : c = 'A'
  · simp [h1]
  · by_cases h2 : c = 'C'
    · simp [h2]
    · by_cases h3 : c = 'G'
      · simp [h1, h2, h3]
      · by_cases h4 : c = 'T'
        · simp [h1, h2, h3, h4]
        · simp [h1, h2, h3, h4]

theorem msa_reverse_compl_seq_invol (seq : List Char) :
    msa_reverse_compl_seq (msa_reverse_compl_seq seq) = seq := by
  unfold msa_reverse_compl_seq
  rw [List.map_reverse, List.reverse_reverse, List.map_map]
  have : msa_compl_char ∘ msa_compl_char = id := by
    funext c; exact msa_compl_char_invol c
  rw [this, List.map_id]

/-- C5: applying `msa_reverse_compl` twice to any explicit-matrix alignment
leaves every row's character sequence exactly equal to its original value. -/
theorem msa_reverse_compl_invol (msa : MSA) :
    (msa_reverse_compl (msa_reverse_compl msa)).seqs = msa.seqs := by
  show (msa.seqs.map msa_reverse_compl_seq).map msa_reverse_compl_seq = msa.seqs
  rw [List.map_map]
  have : msa_reverse_compl_seq ∘ msa_reverse_compl_seq = id := by
    funext s; exact msa_reverse_compl_seq_invol s
  rw [this, List.map_id]

/-! ## Theorems: C8 (concatenation) -/

/-- C8: concatenating alignment `B` (length `n`) onto alignment `A`
(length `m`), both well-formed with the same number of rows, leaves the
aggregate with length `m + n`, the same row count, and every row equal to
`A`'s row followed by `B`'s corresponding row (so the first `m` characters
are `A`'s and the next `n` are `B`'s); `B` itself is untouched. -/
theorem msa_concatenate_spec (A B : MSA) (hA : A.WF) (hB : B.WF)
    (hn : A.nseqs = B.nseqs) :
    (msa_concatenate A B).length = A.length + B.length ∧
    (msa_concatenate A B).seqs.length = A.seqs.length ∧
    ∀ i, i < A.seqs.length →
      (msa_concatenate A B).seqs.getD i [] =
        A.seqs.getD i [] ++ B.seqs.getD i [] := by
  have hlen : B.seqs.length = A.seqs.length := by
    rw [hA.1, hB.1, hn]
  refine ⟨rfl, ?_, ?_⟩
  · show (A.seqs.zipWith _ B.seqs).length = A.seqs.length
    rw [List.length_zipWith, hlen, Nat.min_self]
  · intro i hi
    have hiB : i < B.seqs.length := by omega
    have hiz : i < (A.seqs.zipWith
        (fun arow srow => arow ++ srow.take B.length) B.seqs).length := by
      rw [List.length_zipWith, hlen, Nat.min_self]; exact hi
    show (A.seqs.zipWith _ B.seqs).getD i [] = _
    rw [List.getD_eq_getElem _ _ hiz, List.getElem_zipWith,
        List.getD_eq_getElem _ _ hi, List.getD_eq_getElem _ _ hiB]
    have hrow : (B.seqs[i]).length = B.length :=
      hB.2.2 _ (List.getElem_mem hiB)
    rw [List.take_of_length_le hrow.le]

/-- C8 witness: a concrete two-row concatenation. -/
theorem msa_concatenate_spec_witness :
    (msa_concatenate concatExA concatExB).length = 2 + 1 ∧
    (msa_concatenate concatExA concatExB).seqs.getD 0 [] =
      ['A', 'C'] ++ ['T'] := by
  have h := msa_concatenate_spec concatExA concatExB
    (by decide) (by decide) rfl
  exact ⟨h.1, by rw [h.2.2 0 (by decide)]; decide⟩

/-! ## Theorems: C9 (gap stripping idempotence) -/

theorem map_range_getD (l : List α) (d : α) (n : Nat) (h : l.length = n) :
    (List.range n).map (fun i => l.getD i d) = l := by
  subst h; exact getD_range_map l d

theorem map_range_getD_self (L : List (List α)) (d : α) (n : Nat)
    (h : ∀ row ∈ L, row.length = n) :
    L.map (fun row => (List.range n).map (fun i => row.getD i d)) = L := by
  calc L.map (fun row => (List.range n).map (fun i => row.getD i d))
      = L.map id :=
        List.map_congr_left (fun row hr => map_range_getD row d n (h row hr))
    _ = L := List.map_id L

theorem stripCol_any (msa : MSA) (i : Nat) :
    stripCol msa .strip_any_gaps i =
      msa.seqs.any (fun row => row.getD i GAP_CHAR = GAP_CHAR) := rfl

theorem strip_any_seqs (msa : MSA) :
    (msa_strip_gaps msa .strip_any_gaps).seqs =
      msa.seqs.map (fun row =>
        ((List.range msa.length).filter
          (fun i => ! stripCol msa .strip_any_gaps i)).map
          (fun i => row.getD i GAP_CHAR)) := rfl

theorem strip_any_length (msa : MSA) :
    (msa_strip_gaps msa .strip_any_gaps).length =
      ((List.range msa.length).filter
        (fun i => ! stripCol msa .strip_any_gaps i)).length := rfl

theorem strip_any_cats (msa : MSA) :
    (msa_strip_gaps msa .strip_any_gaps).categories =
      msa.categories.map (fun cats =>
        ((List.range msa.length).filter
          (fun i => ! stripCol msa .strip_any_gaps i)).map
          (fun i => cats.getD i 0)) := rfl

/-- Stripping leaves only columns whose every row is gap-free: the re-read of
any kept column through the compacted rows finds no gap. -/
theorem strip_any_aux (seqs : List (List Char)) (keep : List Nat)
    (hk : ∀ i ∈ keep,
      seqs.any (fun row => row.getD i GAP_CHAR = GAP_CHAR) = false) :
    ∀ t, t < keep.length →
      ((seqs.map (fun row => keep.map (fun i => row.getD i GAP_CHAR))).any
        (fun row => row.getD t GAP_CHAR = GAP_CHAR)) = false := by
  intro t ht
  rw [List.any_map, List.any_eq_false]
  intro row hrow
  simp only [Function.comp_apply]
  have hlen : t < (keep.map (fun i => row.getD i GAP_CHAR)).length := by
    simpa using ht
  rw [List.getD_eq_getElem _ _ hlen, List.getElem_map]
  have := List.any_eq_false.mp (hk _ (List.getElem_mem ht)) row hrow
  simpa using this

/-- C9: `msa_strip_gaps` in `STRIP_ANY_GAPS` mode is idempotent: a second
application returns the stripped alignment entirely unchanged (length, rows,
and category array included), because after one pass no column contains a
gap character. -/
theorem msa_strip_any_gaps_idempotent (msa : MSA) :
    msa_strip_gaps (msa_strip_gaps msa .strip_any_gaps) .strip_any_gaps =
      msa_strip_gaps msa .strip_any_gaps := by
  have hkmem : ∀ i ∈ (List.range msa.length).filter
      (fun i => ! stripCol msa .strip_any_gaps i),
      msa.seqs.any (fun row => row.getD i GAP_CHAR = GAP_CHAR) = false := by
    intro i hi
    have h := List.of_mem_filter hi
    rwa [Bool.not_eq_true', stripCol_any] at h
  have hK2 : (List.range (msa_strip_gaps msa .strip_any_gaps).length).filter
      (fun t => ! stripCol (msa_strip_gaps msa .strip_any_gaps)
        .strip_any_gaps t)
      = List.range (msa_strip_gaps msa .strip_any_gaps).length := by
    apply List.filter_eq_self.mpr
    intro t ht
    rw [List.mem_range, strip_any_length] at ht
    rw [Bool.not_eq_true', stripCol_any, strip_any_seqs]
    exact strip_any_aux msa.seqs _ hkmem t ht
  apply MSA.ext
  · -- seqs
    rw [strip_any_seqs (msa_strip_gaps msa .strip_any_gaps), hK2,
      strip_any_length]
    apply map_range_getD_self
    intro row hrow
    rw [strip_any_seqs msa] at hrow
    rcases List.mem_map.mp hrow with ⟨r0, _, rfl⟩
    simp
  · rfl
  · rfl
  · -- length
    rw [strip_any_length (msa_strip_gaps msa .strip_any_gaps), hK2,
      List.length_range]
  · rfl
  · rfl
  · -- categories
    rw [strip_any_cats (msa_strip_gaps msa .strip_any_gaps), hK2,
      strip_any_length, strip_any_cats msa]
    cases msa.categories with
    | none => rfl
    | some cats =>
      refine congrArg some ?_
      apply map_range_getD
      simp
  · rfl

end Msa

namespace Msa

/-! ## Theorems: C1 (coordinate map round trip) -/

/-- On a strictly increasing integer list, an index is below the count of
elements `≤ v` exactly when the element there is `≤ v`. -/
theorem sorted_countP_lt_iff (l : List Int) (hl : List.Pairwise (fun a b => a < b) l)
    (v : Int) : ∀ t (ht : t < l.length),
    (t < l.countP (fun x => decide (x ≤ v)) ↔ l[t] ≤ v) := by
  induction l with
  | nil => intro t ht; simp at ht
  | cons x xs ih =>
    intro t ht
    have hxall : ∀ y ∈ xs, x < y := fun y hy => List.rel_of_pairwise_cons hl hy
    have hxs := List.Pairwise.of_cons hl
    have hcnt : (x :: xs).countP (fun x => decide (x ≤ v)) =
        xs.countP (fun x => decide (x ≤ v)) + if x ≤ v then 1 else 0 := by
      rw [List.countP_cons]
      by_cases hxv : x ≤ v <;> simp [hxv]
    cases t with
    | zero =>
      simp only [List.getElem_cons_zero]
      rw [hcnt]
      by_cases hxv : x ≤ v
      · rw [if_pos hxv]
        constructor
        · intro _; exact hxv
        · intro _; omega
      · have h0 : xs.countP (fun x => decide (x ≤ v)) = 0 := by
          rw [List.countP_eq_zero]
          intro y hy
          have := hxall y hy
          simp only [decide_eq_true_eq]
          omega
        rw [if_neg hxv, h0]
        constructor
        · intro h; omega
        · intro h; exact absurd h hxv
    | succ t =>
      simp only [List.getElem_cons_succ]
      rw [hcnt]
      have ht' : t < xs.length := by simpa using ht
      have hIH := ih hxs t ht'
      by_cases hxv : x ≤ v
      · rw [if_pos hxv]
        constructor
        · intro h; exact hIH.mp (by omega)
        · intro h; have := hIH.mpr h; omega
      · have h0 : xs.countP (fun x => decide (x ≤ v)) = 0 := by
          rw [List.countP_eq_zero]
          intro y hy
          have := hxall y hy
          simp only [decide_eq_true_eq]
          omega
        have hgt : v < xs[t] := by
          have := hxall _ (List.getElem_mem ht')
          omega
        rw [if_neg hxv, h0]
        constructor
        · intro h; omega
        · intro h; omega

theorem nongapCount_cons (c : Char) (cs : List Char) :
    nongapCount (c :: cs) =
      nongapCount cs + (if c = GAP_CHAR then 0 else 1) := by
  unfold nongapCount
  rw [List.countP_cons]
  by_cases h : c = GAP_CHAR <;> simp [h]

theorem nongapCount_le_length (cs : List Char) :
    nongapCount cs ≤ cs.length := List.countP_le_length _

/-- Per-anchor bounds of the scan: each anchor's sequence position lies in
`(j, j + nongaps]`, and its alignment-minus-sequence offset lies between the
offset at entry and that plus the number of gaps of the suffix. -/
theorem coordAnchors_mem (cs : List Char) : ∀ (i j : Int) (lastGap : Bool),
    ∀ a ∈ coordAnchors cs i j lastGap,
      j < a.2 ∧ a.2 ≤ j + (nongapCount cs : Int) ∧
      i - j ≤ a.1 - a.2 ∧
      a.1 - a.2 ≤ i - j + ((cs.length : Int) - (nongapCount cs : Int)) := by
  induction cs with
  | nil =>
    intro i j lastGap a ha
    simp [coordAnchors] at ha
  | cons c cs ih =>
    intro i j lastGap a ha
    have hle := nongapCount_le_length cs
    simp only [List.length_cons]
    by_cases hgap : c = GAP_CHAR
    · rw [coordAnchors, if_pos hgap] at ha
      have h := ih (i + 1) j true a ha
      rw [nongapCount_cons, if_pos hgap]
      push_cast
      push_cast at h
      refine ⟨h.1, by omega, by omega, by omega⟩
    · rw [coordAnchors, if_neg hgap] at ha
      rw [nongapCount_cons, if_neg hgap]
      cases lastGap with
      | true =>
        rw [if_pos rfl] at ha
        rcases List.mem_cons.mp ha with heq | hmem
        · subst heq
          have e1 : ((i + 1, j + 1) : Int × Int).1 = i + 1 := rfl
          have e2 : ((i + 1, j + 1) : Int × Int).2 = j + 1 := rfl
          rw [e1, e2]
          push_cast
          refine ⟨by omega, by omega, by omega, by omega⟩
        · have h := ih (i + 1) (j + 1) false a hmem
          push_cast
          push_cast at h
          refine ⟨by omega, by omega, by omega, by omega⟩
      | false =>
        rw [if_neg (by simp)] at ha
        have h := ih (i + 1) (j + 1) false a ha
        push_cast
        push_cast at h
        refine ⟨by omega, by omega, by omega, by omega⟩

/-- With the `last_char_gap` flag set, the first anchor pushed (if any) has
sequence position `j + 1`. -/
theorem coordAnchors_head_true (cs : List Char) : ∀ (i j : Int) a,
    (coordAnchors cs i j true).head? = some a → a.2 = j + 1 := by
  induction cs with
  | nil => intro i j a h; simp [coordAnchors] at h
  | cons c cs ih =>
    intro i j a h
    by_cases hgap : c = GAP_CHAR
    · rw [coordAnchors, if_pos hgap] at h
      exact ih (i + 1) j a h
    · rw [coordAnchors, if_neg hgap, if_pos rfl] at h
      simp only [List.head?_cons, Option.some_inj] at h
      subst h
      rfl

/-- With the flag set, an empty anchor list means the suffix has no non-gap
character. -/
theorem coordAnchors_nil_true (cs : List Char) : ∀ (i j : Int),
    coordAnchors cs i j true = [] → nongapCount cs = 0 := by
  induction cs with
  | nil => intro i j _; rfl
  | cons c cs ih =>
    intro i j h
    by_cases hgap : c = GAP_CHAR
    · rw [coordAnchors, if_pos hgap] at h
      rw [nongapCount_cons, if_pos hgap]
      exact ih (i + 1) j h
    · rw [coordAnchors, if_neg hgap, if_pos rfl] at h
      exact absurd h (List.cons_ne_nil _ _)

/-- With the flag clear, any first anchor lies strictly beyond the entry
offset (a gap was consumed before it). -/
theorem coordAnchors_head_false (cs : List Char) : ∀ (i j : Int) a,
    (coordAnchors cs i j false).head? = some a → i - j < a.1 - a.2 := by
  induction cs with
  | nil => intro i j a h; simp [coordAnchors] at h
  | cons c cs ih =>
    intro i j a h
    by_cases hgap : c = GAP_CHAR
    · rw [coordAnchors, if_pos hgap] at h
      have hmem := coordAnchors_mem cs (i + 1) j true a
        (List.mem_of_mem_head? h)
      omega
    · rw [coordAnchors, if_neg hgap, if_neg (by simp)] at h
      have := ih (i + 1) (j + 1) a h
      omega

/-- The anchors are strictly increasing in sequence position and in
alignment-minus-sequence offset. -/
theorem coordAnchors_chain (cs : List Char) : ∀ (i j : Int) (lastGap : Bool),
    List.Chain' (fun a b : Int × Int => a.2 < b.2 ∧ a.1 - a.2 < b.1 - b.2)
      (coordAnchors cs i j lastGap) := by
  induction cs with
  | nil => intro i j lastGap; simp [coordAnchors]
  | cons c cs ih =>
    intro i j lastGap
    by_cases hgap : c = GAP_CHAR
    · rw [coordAnchors, if_pos hgap]
      exact ih (i + 1) j true
    · rw [coordAnchors, if_neg hgap]
      cases lastGap with
      | true =>
        rw [if_pos rfl]
        rw [List.chain'_cons']
        refine ⟨?_, ih (i + 1) (j + 1) false⟩
        intro b hb
        have hmem := coordAnchors_mem cs (i + 1) (j + 1) false b
          (List.mem_of_mem_head? hb)
        have hhd := coordAnchors_head_false cs (i + 1) (j + 1) b hb
        constructor
        · simpa using hmem.1
        · simpa using hhd
      | false =>
        rw [if_neg (by simp)]
        exact ih (i + 1) (j + 1) false

theorem coord_mk_msa_list (M S : List Int) (a b : Int) :
    (⟨M, S, a, b⟩ : msa_coord_map).msa_list = M := rfl

theorem coord_mk_seq_list (M S : List Int) (a b : Int) :
    (⟨M, S, a, b⟩ : msa_coord_map).seq_list = S := rfl

theorem coord_mk_msa_len (M S : List Int) (a b : Int) :
    (⟨M, S, a, b⟩ : msa_coord_map).msa_len = a := rfl

theorem coord_mk_seq_len (M S : List Int) (a b : Int) :
    (⟨M, S, a, b⟩ : msa_coord_map).seq_len = b := rfl

/-- Value of `msa_map_seq_to_msa` on the non-degenerate path. -/
theorem map_seq_to_msa_val (mp : msa_coord_map) (p : Int)
    (h1 : ¬(p < 1 ∨ p > mp.seq_len))
    (h2 : ¬(lst_bsearch_int mp.seq_list p < 0)) :
    msa_map_seq_to_msa mp p =
      mp.msa_list.getD (lst_bsearch_int mp.seq_list p).toNat 0 +
        (p - mp.seq_list.getD (lst_bsearch_int mp.seq_list p).toNat 0) := by
  unfold msa_map_seq_to_msa
  rw [if_neg h1, if_neg h2]

/-- Value of `msa_map_msa_to_seq` on the non-degenerate, unclamped path. -/
theorem map_msa_to_seq_val (mp : msa_coord_map) (q : Int)
    (h1 : ¬(q < 1 ∨ q > mp.msa_len))
    (h2 : ¬(lst_bsearch_int mp.msa_list q < 0))
    (h3 : ¬(mp.seq_list.getD (lst_bsearch_int mp.msa_list q).toNat 0 +
        (q - mp.msa_list.getD (lst_bsearch_int mp.msa_list q).toNat 0) ≥
        nextMatchSeqPos mp (lst_bsearch_int mp.msa_list q))) :
    msa_map_msa_to_seq mp q =
      mp.seq_list.getD (lst_bsearch_int mp.msa_list q).toNat 0 +
        (q - mp.msa_list.getD (lst_bsearch_int mp.msa_list q).toNat 0) := by
  unfold msa_map_msa_to_seq
  rw [if_neg h1, if_neg h2, if_neg h3]

/-- Row-level round trip: on the anchor lists built from a reference row,
mapping a valid ungapped position into the alignment frame and back is the
identity. -/
theorem coord_round_trip_row (row : List Char) (mlen : Int)
    (hmlen : mlen = (row.length : Int)) (p : Int)
    (hp1 : 1 ≤ p) (hp2 : p ≤ (nongapCount row : Int)) :
    msa_map_msa_to_seq
      ⟨(coordAnchors row 0 0 true).map Prod.fst,
       (coordAnchors row 0 0 true).map Prod.snd,
       mlen, (nongapCount row : Int)⟩
      (msa_map_seq_to_msa
        ⟨(coordAnchors row 0 0 true).map Prod.fst,
         (coordAnchors row 0 0 true).map Prod.snd,
         mlen, (nongapCount row : Int)⟩ p) = p := by
  set A := coordAnchors row 0 0 true with hA
  set M := A.map Prod.fst with hM
  set S := A.map Prod.snd with hS
  set G := ((nongapCount row : Nat) : Int) with hG
  have hle := nongapCount_le_length row
  have hSlen : S.length = A.length := by rw [hS]; simp
  have hMlen : M.length = A.length := by rw [hM]; simp
  have hAne : A ≠ [] := by
    intro h
    rw [hA] at h
    have h0 := coordAnchors_nil_true row 0 0 h
    omega
  have hchain := coordAnchors_chain row 0 0 true
  rw [← hA] at hchain
  have hpairS : List.Pairwise (fun a b : Int => a < b) S := by
    rw [hS]
    exact List.chain'_iff_pairwise.mp
      (List.chain'_map_of_chain' Prod.snd (fun a b h => h.1) hchain)
  have hpairM : List.Pairwise (fun a b : Int => a < b) M := by
    rw [hM]
    refine List.chain'_iff_pairwise.mp
      (List.chain'_map_of_chain' Prod.fst (fun a b h => ?_) hchain)
    have h1 := h.1
    have h2 := h.2
    omega
  obtain ⟨a0, ha0⟩ : ∃ a0, A.head? = some a0 := by
    cases hAcase : A with
    | nil => exact absurd hAcase hAne
    | cons x xs => exact ⟨x, rfl⟩
  have ha02 : a0.2 = 1 := by
    have := coordAnchors_head_true row 0 0 a0 (by rw [← hA]; exact ha0)
    omega
  have h1S : (1 : Int) ∈ S := by
    rw [hS]
    exact List.mem_map.mpr ⟨a0, List.mem_of_mem_head? ha0, ha02⟩
  have hcntpos : 0 < S.countP (fun x => decide (x ≤ p)) :=
    List.countP_pos_iff.mpr ⟨1, h1S, by simp; omega⟩
  have hcntle : S.countP (fun x => decide (x ≤ p)) ≤ S.length :=
    List.countP_le_length _
  obtain ⟨k, hk1⟩ : ∃ k, k + 1 = S.countP (fun x => decide (x ≤ p)) :=
    ⟨S.countP (fun x => decide (x ≤ p)) - 1, by omega⟩
  have hkS : k < S.length := by omega
  have hkA : k < A.length := by omega
  have hkM : k < M.length := by omega
  have hklit : ((k : Int)).toNat = k := by omega
  have hbsS : lst_bsearch_int S p = (k : Int) := by
    unfold lst_bsearch_int
    omega
  have hIffS := sorted_countP_lt_iff S hpairS p
  have hSk : S[k] ≤ p := (hIffS k hkS).mp (by omega)
  have hSkA : S[k] = (A[k]).2 := by
    simp only [hS, List.getElem_map]
  have hMkA : M[k] = (A[k]).1 := by
    simp only [hM, List.getElem_map]
  have hpa : (A[k]).2 ≤ p := by rw [← hSkA]; exact hSk
  have haAmem : A[k] ∈ coordAnchors row 0 0 true := List.getElem_mem hkA
  have hamem := coordAnchors_mem row 0 0 true _ haAmem
  have ham1 := hamem.1
  have ham2 := hamem.2.1
  have ham3 := hamem.2.2.1
  have ham4 := hamem.2.2.2
  have hgetSk : S.getD k 0 = (A[k]).2 := by
    rw [List.getD_eq_getElem S 0 hkS, hSkA]
  have hgetMk : M.getD k 0 = (A[k]).1 := by
    rw [List.getD_eq_getElem M 0 hkM, hMkA]
  have htoNat : (lst_bsearch_int S p).toNat = k := by
    rw [hbsS]; omega
  have hval1 : msa_map_seq_to_msa ⟨M, S, mlen, G⟩ p =
      (A[k]).1 + (p - (A[k]).2) := by
    rw [map_seq_to_msa_val ⟨M, S, mlen, G⟩ p
      (by simp only [coord_mk_seq_len]; omega)
      (by simp only [coord_mk_seq_list]; rw [hbsS]; omega)]
    simp only [coord_mk_msa_list, coord_mk_seq_list, htoNat, hgetSk, hgetMk]
  obtain ⟨a1, a2, hak⟩ : ∃ a1 a2, A[k] = (a1, a2) :=
    ⟨(A[k]).1, (A[k]).2, rfl⟩
  simp only [hak] at hSkA hMkA hpa hgetSk hgetMk hval1 ham1 ham2 ham3 ham4
  have hq1 : 1 ≤ a1 + (p - a2) := by omega
  have hIffM := sorted_countP_lt_iff M hpairM (a1 + (p - a2))
  have hcm1 : k < M.countP (fun x => decide (x ≤ a1 + (p - a2))) := by
    refine (hIffM k hkM).mpr ?_
    rw [hMkA]
    omega
  by_cases hlast : k + 1 < A.length
  case pos =>
    have hkS1 : k + 1 < S.length := by omega
    have hkM1 : k + 1 < M.length := by omega
    have hrel := List.chain'_iff_get.mp hchain k (by omega)
    simp only [List.get_eq_getElem] at hrel
    have hbAmem : A[k+1] ∈ coordAnchors row 0 0 true :=
      List.getElem_mem hlast
    have hbmem := coordAnchors_mem row 0 0 true _ hbAmem
    have hbm2 := hbmem.2.1
    have hbm4 := hbmem.2.2.2
    have hSk1A : S[k+1] = (A[k+1]).2 := by
      simp only [hS, List.getElem_map]
    have hMk1A : M[k+1] = (A[k+1]).1 := by
      simp only [hM, List.getElem_map]
    obtain ⟨b1, b2, hbk⟩ : ∃ b1 b2, A[k+1] = (b1, b2) :=
      ⟨(A[k+1]).1, (A[k+1]).2, rfl⟩
    simp only [hbk] at hSk1A hMk1A hbm2 hbm4
    have hr1 : a2 < b2 := by
      have := hrel.1
      simp only [hak, hbk] at this
      exact this
    have hr2 : a1 - a2 < b1 - b2 := by
      have := hrel.2
      simp only [hak, hbk] at this
      exact this
    have hpnext : p < b2 := by
      have hnotc : ¬ (k + 1 < S.countP (fun x => decide (x ≤ p))) := by omega
      have hiff := hIffS (k+1) hkS1
      rw [hSk1A] at hiff
      by_contra hc
      exact hnotc (hiff.mpr (by omega))
    have hq2 : a1 + (p - a2) ≤ mlen := by omega
    have hcm2 : ¬ (k + 1 < M.countP (fun x => decide (x ≤ a1 + (p - a2)))) := by
      intro hcc
      have := (hIffM (k+1) hkM1).mp hcc
      rw [hMk1A] at this
      omega
    have hbsM : lst_bsearch_int M (a1 + (p - a2)) = (k : Int) := by
      unfold lst_bsearch_int
      omega
    have hnextval : nextMatchSeqPos ⟨M, S, mlen, G⟩ (k : Int) = b2 := by
      unfold nextMatchSeqPos
      rw [if_pos (by simp only [coord_mk_seq_list]; omega)]
      simp only [coord_mk_seq_list]
      have he : ((k : Int)).toNat + 1 = k + 1 := by omega
      rw [he, List.getD_eq_getElem S 0 hkS1, hSk1A]
    rw [hval1]
    rw [map_msa_to_seq_val ⟨M, S, mlen, G⟩ (a1 + (p - a2))
      (by simp only [coord_mk_msa_len]; omega)
      (by simp only [coord_mk_msa_list]; rw [hbsM]; omega)
      (by
        simp only [coord_mk_msa_list, coord_mk_seq_list]
        rw [hbsM, hklit, hgetSk, hgetMk, hnextval]
        omega)]
    simp only [coord_mk_msa_list, coord_mk_seq_list]
    rw [hbsM, hklit, hgetSk, hgetMk]
    omega
  case neg =>
    have hklen : k + 1 = A.length := by omega
    have hq2 : a1 + (p - a2) ≤ mlen := by omega
    have hcm2 : M.countP (fun x => decide (x ≤ a1 + (p - a2))) ≤ k + 1 := by
      have := List.countP_le_length
        (l := M) (p := fun x => decide (x ≤ a1 + (p - a2)))
      omega
    have hbsM : lst_bsearch_int M (a1 + (p - a2)) = (k : Int) := by
      unfold lst_bsearch_int
      omega
    have hnextval : nextMatchSeqPos ⟨M, S, mlen, G⟩ (k : Int) = G + 1 := by
      unfold nextMatchSeqPos
      rw [if_neg (by simp only [coord_mk_seq_list]; omega)]
    rw [hval1]
    rw [map_msa_to_seq_val ⟨M, S, mlen, G⟩ (a1 + (p - a2))
      (by simp only [coord_mk_msa_len]; omega)
      (by simp only [coord_mk_msa_list]; rw [hbsM]; omega)
      (by
        simp only [coord_mk_msa_list, coord_mk_seq_list]
        rw [hbsM, hklit, hgetSk, hgetMk, hnextval]
        omega)]
    simp only [coord_mk_msa_list, coord_mk_seq_list]
    rw [hbsM, hklit, hgetSk, hgetMk]
    omega

/-- C1: for every explicit-matrix alignment and 1-based reference row `r`
with positive ungapped length, the two directions of the coordinate map
built by `msa_build_coord_map` compose to the identity on every valid
sequence position `p ∈ [1, seq_len]`. -/
theorem msa_coord_map_round_trip (msa : MSA) (r : Nat) (hwf : msa.WF)
    (hr1 : 1 ≤ r) (hr2 : r ≤ msa.nseqs)
    (hpos : 0 < (msa_build_coord_map msa r).seq_len)
    (p : Int) (hp1 : 1 ≤ p) (hp2 : p ≤ (msa_build_coord_map msa r).seq_len) :
    msa_map_msa_to_seq (msa_build_coord_map msa r)
      (msa_map_seq_to_msa (msa_build_coord_map msa r) p) = p := by
  have hb : msa_build_coord_map msa r =
      ⟨(coordAnchors (msa.seqs.getD (r - 1) []) 0 0 true).map Prod.fst,
       (coordAnchors (msa.seqs.getD (r - 1) []) 0 0 true).map Prod.snd,
       (msa.length : Int),
       (nongapCount (msa.seqs.getD (r - 1) []) : Int)⟩ := rfl
  have hr0 : r - 1 < msa.seqs.length := by
    rw [hwf.1]; omega
  have hrlen : (msa.seqs.getD (r - 1) []).length = msa.length := by
    rw [List.getD_eq_getElem msa.seqs [] hr0]
    exact hwf.2.2 _ (List.getElem_mem hr0)
  rw [hb] at hp2 ⊢
  rw [coord_mk_seq_len] at hp2
  exact coord_round_trip_row _ _ (by rw [hrlen]) p hp1 hp2

/-- C1 witness: the round trip at the concrete position 2 of `coordEx`. -/
theorem msa_coord_map_round_trip_witness :
    (coordEx.WF ∧ 0 < (msa_build_coord_map coordEx 1).seq_len ∧
      (2 : Int) ≤ (msa_build_coord_map coordEx 1).seq_len) ∧
    msa_map_msa_to_seq (msa_build_coord_map coordEx 1)
      (msa_map_seq_to_msa (msa_build_coord_map coordEx 1) 2) = 2 :=
  ⟨⟨by decide, by decide, by decide⟩,
    msa_coord_map_round_trip coordEx 1 (by decide) (by decide) (by decide)
      (by decide) 2 (by decide) (by decide)⟩

end Msa

namespace Msa

/-! ## Theorems: C7 (row reordering) -/

theorem findNameIdx_neg_iff (name : String) : ∀ ns : List String,
    findNameIdx ns name < 0 ↔ name ∉ ns := by
  intro ns
  induction ns with
  | nil => simp [findNameIdx]
  | cons n ns ih =>
    rw [findNameIdx]
    by_cases h : n = name
    · rw [if_pos h]
      constructor
      · intro h0; omega
      · intro hmem
        exact absurd (by rw [h]; exact List.mem_cons_self name ns) hmem
    · rw [if_neg h]
      by_cases h2 : findNameIdx ns name < 0
      · rw [if_pos h2]
        constructor
        · intro _
          intro hmem
          rcases List.mem_cons.mp hmem with he | hm
          · exact h he.symm
          · exact (ih.mp h2) hm
        · intro _; omega
      · rw [if_neg h2]
        constructor
        · intro hh; omega
        · intro hh
          exfalso
          apply hh
          apply List.mem_cons_of_mem
          by_contra hnm
          exact h2 (ih.mpr hnm)

theorem findNameIdx_getD (name : String) : ∀ ns : List String,
    0 ≤ findNameIdx ns name →
    (findNameIdx ns name).toNat < ns.length ∧
      ns.getD (findNameIdx ns name).toNat "" = name := by
  intro ns
  induction ns with
  | nil =>
    intro hge
    simp [findNameIdx] at hge
  | cons n ns ih =>
    intro hge
    rw [findNameIdx] at hge ⊢
    by_cases h : n = name
    · rw [if_pos h]
      simp [h]
    · rw [if_neg h] at hge ⊢
      by_cases h2 : findNameIdx ns name < 0
      · rw [if_pos h2] at hge
        exfalso; omega
      · rw [if_neg h2] at hge ⊢
        have hih := ih (by omega)
        have he : (findNameIdx ns name + 1).toNat
            = (findNameIdx ns name).toNat + 1 := by omega
        rw [he]
        refine ⟨by simp; omega, ?_⟩
        simpa using hih.2

theorem msa_get_seq_idx_eq (msa : MSA) (name : String) :
    msa_get_seq_idx msa name = findNameIdx msa.names name := rfl

/-- C7: `msa_reorder_rows` fails (aborts) whenever the target order omits
the name of an existing row; when the target order is a (name-distinct)
superset of the alignment's (distinct) names, it succeeds, the result has
one row per target name in target order, the alignment length is unchanged,
every target name absent from the alignment receives a row of
`msa.length` copies of the missing-data character, and every present name
carries over its original row. -/
theorem msa_reorder_rows_spec (msa : MSA) (target : List String)
    (hwf : msa.WF) :
    ((∃ n ∈ msa.names, n ∉ target) → msa_reorder_rows msa target = none) ∧
    (msa.names.Nodup → target.Nodup → (∀ n ∈ msa.names, n ∈ target) →
      ∃ m', msa_reorder_rows msa target = some m' ∧
        m'.nseqs = target.length ∧
        m'.names = target ∧
        m'.length = msa.length ∧
        m'.seqs.length = target.length ∧
        (∀ t, t < target.length → target.getD t "" ∉ msa.names →
          m'.seqs.getD t [] =
            List.replicate msa.length (msa.missing.headD 'N')) ∧
        (∀ t, t < target.length → ∀ i, i < msa.seqs.length →
          msa.names.getD i "" = target.getD t "" →
          m'.seqs.getD t [] = msa.seqs.getD i [])) := by
  have hnames_len : msa.names.length = msa.nseqs := hwf.2.1
  constructor
  · -- an omitted name aborts
    rintro ⟨name, hmem, hnot⟩
    rw [msa_reorder_rows]
    by_cases hc1 : ¬ ((target.map (fun s => msa_get_seq_idx msa s)).filter
        (fun v => 0 ≤ v)).Nodup
    · rw [if_pos hc1]
    · rw [if_neg hc1]
      rw [if_pos]
      intro hcov
      have hge : 0 ≤ findNameIdx msa.names name := by
        by_contra hlt
        exact ((findNameIdx_neg_iff name msa.names).mp (by omega)) hmem
      have hspec := findNameIdx_getD name msa.names hge
      have hidx : (findNameIdx msa.names name).toNat < msa.nseqs := by
        omega
      have hin := hcov (findNameIdx msa.names name).toNat
        (List.mem_range.mpr hidx)
      rcases List.mem_map.mp hin with ⟨t, htmem, hteq⟩
      have htge : 0 ≤ msa_get_seq_idx msa t := by rw [hteq]; omega
      rw [msa_get_seq_idx_eq] at hteq htge
      have htspec := findNameIdx_getD t msa.names htge
      have : t = name := by
        have h1 := htspec.2
        rw [hteq] at h1
        have he : ((findNameIdx msa.names name : Int)).toNat
            = (findNameIdx msa.names name).toNat := rfl
        rw [show (((findNameIdx msa.names name).toNat : Int)).toNat
            = (findNameIdx msa.names name).toNat by omega] at h1
        rw [← h1, hspec.2]
      exact hnot (this ▸ htmem)
  · -- a strict superset succeeds
    intro hndm hndt hsub
    have hcond1 : ((target.map (fun s => msa_get_seq_idx msa s)).filter
        (fun v => 0 ≤ v)).Nodup := by
      have hpair2 : (target.map (fun s => msa_get_seq_idx msa s)).Pairwise
          (fun a b => 0 ≤ a → 0 ≤ b → a ≠ b) := by
        rw [List.pairwise_map]
        refine hndt.imp ?_
        intro a b hne hfa hfb heq
        rw [msa_get_seq_idx_eq] at hfa hfb heq
        have h1 := findNameIdx_getD a msa.names hfa
        have h2 := findNameIdx_getD b msa.names hfb
        rw [heq] at h1
        exact hne (h1.2.symm.trans h2.2)
      refine List.Pairwise.imp_of_mem ?_
        (hpair2.sublist (List.filter_sublist _))
      intro a b ha hb hR
      have ha' : 0 ≤ a := by simpa using List.of_mem_filter ha
      have hb' : 0 ≤ b := by simpa using List.of_mem_filter hb
      exact hR ha' hb'
    have hcond2 : ∀ i ∈ List.range msa.nseqs,
        (i : Int) ∈ target.map (fun s => msa_get_seq_idx msa s) := by
      intro i hi
      rw [List.mem_range] at hi
      have hilen : i < msa.names.length := by omega
      have hmem : msa.names[i] ∈ msa.names := List.getElem_mem hilen
      have htg := hsub _ hmem
      have hge : 0 ≤ findNameIdx msa.names msa.names[i] := by
        by_contra hlt
        exact ((findNameIdx_neg_iff _ msa.names).mp (by omega)) hmem
      have hspec := findNameIdx_getD _ msa.names hge
      have hidx : (findNameIdx msa.names msa.names[i]).toNat = i := by
        have h1 := hspec.2
        rw [List.getD_eq_getElem msa.names "" hspec.1] at h1
        exact (List.Nodup.getElem_inj_iff hndm).mp h1
      refine List.mem_map.mpr ⟨msa.names[i], htg, ?_⟩
      rw [msa_get_seq_idx_eq]
      omega
    refine ⟨{ msa with
        names := (target.zip (target.map (fun s => msa_get_seq_idx msa s))).map
          (fun sv => if 0 ≤ sv.2 then msa.names.getD sv.2.toNat "" else sv.1)
        seqs := (target.map (fun s => msa_get_seq_idx msa s)).map (fun v =>
          if 0 ≤ v then msa.seqs.getD v.toNat []
          else List.replicate msa.length (msa.missing.headD 'N'))
        nseqs := target.length }, ?_, ?_, ?_, ?_, ?_, ?_, ?_⟩
    · rw [msa_reorder_rows]
      rw [if_neg (not_not_intro hcond1), if_neg (not_not_intro hcond2)]
    · rfl
    · -- names
      apply List.ext_getElem
      · simp
      · intro t h1 h2
        simp only [List.getElem_map, List.getElem_zip]
        by_cases hge : 0 ≤ msa_get_seq_idx msa target[t]
        · rw [if_pos hge]
          rw [msa_get_seq_idx_eq] at hge ⊢
          exact (findNameIdx_getD _ msa.names hge).2
        · rw [if_neg hge]
    · rfl
    · simp
    · -- synthesized rows
      intro t ht hnot
      have htm : t < (target.map (fun s => msa_get_seq_idx msa s)).length := by
        simpa using ht
      rw [List.getD_eq_getElem _ [] (by simpa using ht), List.getElem_map]
      have hlt : (target.map (fun s => msa_get_seq_idx msa s))[t] < 0 := by
        rw [List.getElem_map, msa_get_seq_idx_eq]
        rw [findNameIdx_neg_iff]
        rw [List.getD_eq_getElem target "" ht] at hnot
        exact hnot
      rw [if_neg (by omega)]
    · -- carried-over rows
      intro t ht i hi hname
      have htm : t < (target.map (fun s => msa_get_seq_idx msa s)).length := by
        simpa using ht
      have hilen : i < msa.names.length := by
        have := hwf.1
        omega
      rw [List.getD_eq_getElem target "" ht] at hname
      rw [List.getD_eq_getElem msa.names "" hilen] at hname
      have hmem : target[t] ∈ msa.names := by
        rw [← hname]
        exact List.getElem_mem hilen
      have hge : 0 ≤ findNameIdx msa.names target[t] := by
        by_contra hlt
        exact ((findNameIdx_neg_iff _ msa.names).mp (by omega)) hmem
      have hspec := findNameIdx_getD _ msa.names hge
      have hidx : (findNameIdx msa.names target[t]).toNat = i := by
        have h1 := hspec.2
        rw [List.getD_eq_getElem msa.names "" hspec.1] at h1
        exact (List.Nodup.getElem_inj_iff hndm).mp (h1.trans hname.symm)
      rw [List.getD_eq_getElem _ [] (by simpa using ht), List.getElem_map]
      rw [List.getElem_map, msa_get_seq_idx_eq]
      rw [if_pos hge, hidx]

/-- C7 witness: with target order `[s2, s0, s1]` (a strict superset of
`reorderEx`'s names) the reorder succeeds and synthesizes an all-missing
row for `s0`; the failure half is exercised on target `[s1]`, which omits
`s2`. -/
theorem msa_reorder_rows_spec_witness :
    msa_reorder_rows reorderEx ["s1"] = none ∧
    ∃ m', msa_reorder_rows reorderEx ["s2", "s0", "s1"] = some m' ∧
      m'.nseqs = 3 ∧ m'.names = ["s2", "s0", "s1"] ∧
      m'.seqs.getD 1 [] = List.replicate 2 'N' := by
  constructor
  · exact (msa_reorder_rows_spec reorderEx ["s1"] (by decide)).1
      ⟨"s2", by decide, by decide⟩
  · obtain ⟨m', he, hn, hnames, hlen, hslen, hsynth, hcarry⟩ :=
      (msa_reorder_rows_spec reorderEx ["s2", "s0", "s1"] (by decide)).2
        (by decide) (by decide) (by decide)
    refine ⟨m', he, hn, hnames, ?_⟩
    have := hsynth 1 (by decide) (by decide)
    simpa using this

end Msa

namespace Msa

/-! ## Theorems: C6 (category labeling precedence) -/

theorem getD_set_ne (l : List Int) (i k : Nat) (v d : Int) (h : i ≠ k) :
    (l.set i v).getD k d = l.getD k d := by
  rw [List.getD_eq_getElem?_getD, List.getD_eq_getElem?_getD,
    List.getElem?_set_ne h]

theorem getD_set_self (l : List Int) (i : Nat) (v d : Int)
    (h : i < l.length) :
    (l.set i v).getD i d = v := by
  rw [List.getD_eq_getElem _ _ (by simpa using h)]
  exact List.getElem_set_self _

theorem labelColsNC_step (cm : CategoryMap) (cat : Int) (cats : List Int)
    (j : Int) (n : Nat) :
    labelColsNC cm cat cats j (n + 1) =
      labelColsNC cm cat
        (if cm.labelling_precedence (cats.getD (j - 1).toNat 0) = -1 ∨
            (cm.labelling_precedence cat ≠ -1 ∧
              cm.labelling_precedence cat <
                cm.labelling_precedence (cats.getD (j - 1).toNat 0))
         then cats.set (j - 1).toNat cat else cats)
        (j + 1) n := rfl

theorem labelColsNC_length (cm : CategoryMap) (cat : Int) :
    ∀ (n : Nat) (cats : List Int) (j : Int),
    (labelColsNC cm cat cats j n).length = cats.length := by
  intro n
  induction n with
  | zero => intro cats j; rfl
  | succ n ih =>
    intro cats j
    rw [labelColsNC_step, ih]
    split
    · simp
    · rfl

theorem labelColsNC_getD_out (cm : CategoryMap) (cat : Int) :
    ∀ (n : Nat) (cats : List Int) (j x : Int),
    1 ≤ x → 1 ≤ j → (x < j ∨ j + (n : Int) ≤ x) →
    (labelColsNC cm cat cats j n).getD (x - 1).toNat 0 =
      cats.getD (x - 1).toNat 0 := by
  intro n
  induction n with
  | zero => intro cats j x _ _ _; rfl
  | succ n ih =>
    intro cats j x hx hj hout
    have hne : (j - 1).toNat ≠ (x - 1).toNat := by
      push_cast at hout
      omega
    rw [labelColsNC_step]
    rw [ih _ (j + 1) x hx (by omega) (by push_cast at hout ⊢; omega)]
    split
    · rw [getD_set_ne _ _ _ _ _ hne]
    · rfl

theorem labelColsNC_getD_in (cm : CategoryMap) (cat : Int) :
    ∀ (n : Nat) (cats : List Int) (j x : Int),
    1 ≤ j → j ≤ x → x < j + (n : Int) → (x - 1).toNat < cats.length →
    (labelColsNC cm cat cats j n).getD (x - 1).toNat 0 =
      (if cm.labelling_precedence (cats.getD (x - 1).toNat 0) = -1 ∨
          (cm.labelling_precedence cat ≠ -1 ∧
            cm.labelling_precedence cat <
              cm.labelling_precedence (cats.getD (x - 1).toNat 0))
       then cat else cats.getD (x - 1).toNat 0) := by
  intro n
  induction n with
  | zero =>
    intro cats j x h1 h2 h3 h4
    exfalso
    push_cast at h3
    omega
  | succ n ih =>
    intro cats j x h1 h2 h3 h4
    rw [labelColsNC_step]
    by_cases hjx : j = x
    · subst hjx
      rw [labelColsNC_getD_out cm cat n _ (j + 1) j (by omega) (by omega)
        (by omega)]
      split
      · exact getD_set_self cats (j - 1).toNat cat 0 h4
      · rfl
    · have hne : (j - 1).toNat ≠ (x - 1).toNat := by omega
      by_cases hcond : cm.labelling_precedence (cats.getD (j - 1).toNat 0)
            = -1 ∨
          (cm.labelling_precedence cat ≠ -1 ∧
            cm.labelling_precedence cat <
              cm.labelling_precedence (cats.getD (j - 1).toNat 0))
      · rw [if_pos hcond]
        rw [ih (cats.set (j - 1).toNat cat) (j + 1) x (by omega) (by omega)
          (by push_cast at h3 ⊢; omega) (by simpa using h4)]
        rw [getD_set_ne _ _ _ _ _ hne]
      · rw [if_neg hcond]
        exact ih cats (j + 1) x (by omega) (by omega)
          (by push_cast at h3 ⊢; omega) h4

/-- Labeling two overlapping non-cyclic features in order: when the
background has no precedence and both categories have one, the common
column ends with the second feature's category exactly when its precedence
number is lower. -/
theorem label_two (msa : MSA) (cm : CategoryMap) (f g : GFF_Feature)
    (x : Int)
    (hb : cm.labelling_precedence 0 = -1)
    (hcf : cm.catOf f.feature ≠ 0) (hcg : cm.catOf g.feature ≠ 0)
    (hncf : (cm.ranges (cm.catOf f.feature)).1
      = (cm.ranges (cm.catOf f.feature)).2)
    (hncg : (cm.ranges (cm.catOf g.feature)).1
      = (cm.ranges (cm.catOf g.feature)).2)
    (hpf : cm.labelling_precedence (cm.catOf f.feature) ≠ -1)
    (hpg : cm.labelling_precedence (cm.catOf g.feature) ≠ -1)
    (hxf1 : f.start ≤ x) (hxf2 : x ≤ f.endPos)
    (hxg1 : g.start ≤ x) (hxg2 : x ≤ g.endPos)
    (hsf : 1 ≤ f.start) (hsg : 1 ≤ g.start)
    (hef : f.endPos < (msa.length : Int))
    (heg : g.endPos < (msa.length : Int)) :
    ((msa_label_categories msa [f, g] cm).categories.getD []).getD
        (x - 1).toNat 0 =
      if cm.labelling_precedence (cm.catOf g.feature) <
          cm.labelling_precedence (cm.catOf f.feature)
      then cm.catOf g.feature else cm.catOf f.feature := by
  have hstep : ((msa_label_categories msa [f, g] cm).categories).getD [] =
      labelColsNC cm (cm.catOf g.feature)
        (labelColsNC cm (cm.catOf f.feature)
          (List.replicate msa.length (0 : Int))
          f.start (f.endPos - f.start + 1).toNat)
        g.start (g.endPos - g.start + 1).toNat := by
    show (Option.some _).getD [] = _
    rw [Option.getD_some]
    show List.foldl _ _ [f, g] = _
    rw [List.foldl_cons, List.foldl_cons, List.foldl_nil]
    rw [if_neg (by rintro ⟨h0, _⟩; exact hcg h0)]
    rw [if_neg (by omega)]
    rw [if_pos hncg]
    rw [if_neg (by rintro ⟨h0, _⟩; exact hcf h0)]
    rw [if_neg (by omega)]
    rw [if_pos hncf]
  rw [hstep]
  have hlen1 : (labelColsNC cm (cm.catOf f.feature)
      (List.replicate msa.length (0 : Int))
      f.start (f.endPos - f.start + 1).toNat).length = msa.length := by
    rw [labelColsNC_length]
    simp
  have hxbound : (x - 1).toNat < msa.length := by omega
  have hval1 : (labelColsNC cm (cm.catOf f.feature)
      (List.replicate msa.length (0 : Int))
      f.start (f.endPos - f.start + 1).toNat).getD (x - 1).toNat 0 =
      cm.catOf f.feature := by
    rw [labelColsNC_getD_in cm _ _ _ f.start x hsf hxf1 (by omega)
      (by simpa using hxbound)]
    have h0 : (List.replicate msa.length (0 : Int)).getD (x - 1).toNat 0
        = 0 := by
      rw [List.getD_eq_getElem _ _ (by simpa using hxbound)]
      exact List.getElem_replicate _ _
    rw [h0, hb]
    rw [if_pos (Or.inl rfl)]
  rw [labelColsNC_getD_in cm _ _ _ g.start x hsg hxg1 (by omega)
    (by rw [hlen1]; exact hxbound)]
  rw [hval1]
  by_cases hlt : cm.labelling_precedence (cm.catOf g.feature) <
      cm.labelling_precedence (cm.catOf f.feature)
  · rw [if_pos (Or.inr ⟨hpg, hlt⟩), if_pos hlt]
  · rw [if_neg (by
      rintro (h0 | ⟨_, hl⟩)
      · exact hpf h0
      · exact hlt hl), if_neg hlt]

end Msa

namespace Msa

/-- C6 (amended): after `msa_label_categories` processes two overlapping
features of non-cyclic categories with defined, distinct labelling
precedences — and the background category has no defined precedence — the
shared column is labelled with the numerically-lower-precedence category,
in either feature order. -/
theorem msa_label_categories_precedence (msa : MSA) (cm : CategoryMap)
    (f1 f2 : GFF_Feature) (x : Int)
    (hb : cm.labelling_precedence 0 = -1)
    (hc1 : cm.catOf f1.feature ≠ 0) (hc2 : cm.catOf f2.feature ≠ 0)
    (hnc1 : (cm.ranges (cm.catOf f1.feature)).1
      = (cm.ranges (cm.catOf f1.feature)).2)
    (hnc2 : (cm.ranges (cm.catOf f2.feature)).1
      = (cm.ranges (cm.catOf f2.feature)).2)
    (hp1 : cm.labelling_precedence (cm.catOf f1.feature) ≠ -1)
    (hp2 : cm.labelling_precedence (cm.catOf f2.feature) ≠ -1)
    (hpne : cm.labelling_precedence (cm.catOf f1.feature) ≠
      cm.labelling_precedence (cm.catOf f2.feature))
    (hx11 : f1.start ≤ x) (hx12 : x ≤ f1.endPos)
    (hx21 : f2.start ≤ x) (hx22 : x ≤ f2.endPos)
    (hs1 : 1 ≤ f1.start) (hs2 : 1 ≤ f2.start)
    (he1 : f1.endPos < (msa.length : Int))
    (he2 : f2.endPos < (msa.length : Int)) :
    ((msa_label_categories msa [f1, f2] cm).categories.getD []).getD
        (x - 1).toNat 0 =
      (if cm.labelling_precedence (cm.catOf f1.feature) <
          cm.labelling_precedence (cm.catOf f2.feature)
       then cm.catOf f1.feature else cm.catOf f2.feature) ∧
    ((msa_label_categories msa [f2, f1] cm).categories.getD []).getD
        (x - 1).toNat 0 =
      (if cm.labelling_precedence (cm.catOf f1.feature) <
          cm.labelling_precedence (cm.catOf f2.feature)
       then cm.catOf f1.feature else cm.catOf f2.feature) := by
  have h12 := label_two msa cm f1 f2 x hb hc1 hc2 hnc1 hnc2 hp1 hp2
    hx11 hx12 hx21 hx22 hs1 hs2 he1 he2
  have h21 := label_two msa cm f2 f1 x hb hc2 hc1 hnc2 hnc1 hp2 hp1
    hx21 hx22 hx11 hx12 hs2 hs1 he2 he1
  constructor
  · rw [h12]
    by_cases h : cm.labelling_precedence (cm.catOf f1.feature) <
        cm.labelling_precedence (cm.catOf f2.feature)
    · rw [if_neg (by omega), if_pos h]
    · rw [if_pos (by omega), if_neg h]
  · rw [h21]

/-- C6 counterexample to the claim as stated: with a category map whose
background category 0 has a defined labelling precedence (0, numerically
lowest), two overlapping non-cyclic features of categories 1 and 2 — both
with defined, distinct precedences 1 and 2 — leave their shared column 1
labelled 0 in both feature orders, not the lower-precedence category 1
that the claim requires. -/
theorem msa_label_categories_precedence_cex :
    cmEx.catOf featA.feature = 1 ∧ cmEx.catOf featB.feature = 2 ∧
    cmEx.labelling_precedence (cmEx.catOf featA.feature) = 1 ∧
    cmEx.labelling_precedence (cmEx.catOf featB.feature) = 2 ∧
    (cmEx.ranges 1).1 = (cmEx.ranges 1).2 ∧
    (cmEx.ranges 2).1 = (cmEx.ranges 2).2 ∧
    featA.start ≤ 1 ∧ (1 : Int) ≤ featA.endPos ∧
    featB.start ≤ 1 ∧ (1 : Int) ≤ featB.endPos ∧
    featB.endPos < (msaEx6.length : Int) ∧
    ((msa_label_categories msaEx6 [featA, featB] cmEx).categories.getD
      []).getD 0 0 = 0 ∧
    ((msa_label_categories msaEx6 [featB, featA] cmEx).categories.getD
      []).getD 0 0 = 0 ∧
    (0 : Int) ≠ 1 := by decide

/-- C6 witness: the amended theorem applied at concrete features of
precedences 1 and 2 over `cmEx2` (background precedence undefined); the
shared column 1 receives category 1. -/
theorem msa_label_categories_precedence_witness :
    (cmEx2.labelling_precedence 0 = -1 ∧
      cmEx2.labelling_precedence (cmEx2.catOf featA.feature) ≠
        cmEx2.labelling_precedence (cmEx2.catOf featB.feature)) ∧
    (((msa_label_categories msaEx6 [featA, featB] cmEx2).categories.getD
        []).getD ((1 : Int) - 1).toNat 0 =
      (if cmEx2.labelling_precedence (cmEx2.catOf featA.feature) <
          cmEx2.labelling_precedence (cmEx2.catOf featB.feature)
       then cmEx2.catOf featA.feature else cmEx2.catOf featB.feature) ∧
     ((msa_label_categories msaEx6 [featB, featA] cmEx2).categories.getD
        []).getD ((1 : Int) - 1).toNat 0 =
      (if cmEx2.labelling_precedence (cmEx2.catOf featA.feature) <
          cmEx2.labelling_precedence (cmEx2.catOf featB.feature)
       then cmEx2.catOf featA.feature else cmEx2.catOf featB.feature)) :=
  ⟨⟨by decide, by decide⟩,
    msa_label_categories_precedence msaEx6 cmEx2 featA featB 1
      (by decide) (by decide) (by decide) (by decide) (by decide)
      (by decide) (by decide) (by decide) (by decide) (by decide)
      (by decide) (by decide) (by decide) (by decide) (by decide)
      (by decide)⟩

end Msa

namespace Msa

/-! ## Theorems: C2, C3, C10 (coding-sequence cleaning) and C4 (file
reading) -/

/-- C2 counterexample to the claim as stated: on the one-row alignment
`ATGAAATAA` with `min_ncodons = 1`, `msa_coding_clean` does return 0
(success), but the cleaned alignment has length 6, not 9: with
`KEEP_STOP_CODONS = 0` the backward scan sets `end` to the last position
before the stop codon, so the stop codon `TAA` is dropped. -/
theorem msa_coding_clean_atg_cex :
    (msa_coding_clean msaCC2 0 1 []).1 = 0 ∧
    (msa_coding_clean msaCC2 0 1 []).2.1.length = 6 ∧
    ¬ ((msa_coding_clean msaCC2 0 1 []).2.1.length = 9) := by decide

/-- C2 (amended): coding-sequence cleaning of the one-row alignment
`ATGAAATAA` with `min_ncodons = 1` reports success (0) and retains the
first two codons `ATGAAA` (length 6); the stop codon is removed because
`KEEP_STOP_CODONS` is 0. -/
theorem msa_coding_clean_atg :
    (msa_coding_clean msaCC2 0 1 []).1 = 0 ∧
    (msa_coding_clean msaCC2 0 1 []).2.1.seqs =
      [['A', 'T', 'G', 'A', 'A', 'A']] ∧
    (msa_coding_clean msaCC2 0 1 []).2.1.length = 6 := by decide

theorem mem_ite_append {α : Type} (a : α) (c : Prop) [Decidable c]
    (l add : List α) (hm : a ∈ l) : a ∈ (if c then l ++ add else l) := by
  split
  · exact List.mem_append_left _ hm
  · exact hm

/-- C3: whenever the reference row fails the start-codon check,
`msa_coding_clean` returns 1, appends the descriptive start-codon message
to the error string, and leaves the alignment untouched (no cleaned
output is produced). -/
theorem msa_coding_clean_no_start (msa : MSA) (refseq : Nat)
    (min_ncodons : Int) (errstr : List String)
    (h : ccStartFail msa refseq = true) :
    (msa_coding_clean msa refseq min_ncodons errstr).1 = 1 ∧
    startMsg ∈ (msa_coding_clean msa refseq min_ncodons errstr).2.2 ∧
    (msa_coding_clean msa refseq min_ncodons errstr).2.1 = msa := by
  have hr : ccRetval msa refseq min_ncodons = 1 := by
    unfold ccRetval
    rw [if_pos (by rw [h]; rfl)]
  unfold msa_coding_clean
  rw [if_neg (by simp [hr])]
  refine ⟨hr, ?_, rfl⟩
  show startMsg ∈ ccErr4 msa refseq min_ncodons errstr
  unfold ccErr4
  apply mem_ite_append
  unfold ccErr3
  apply mem_ite_append
  unfold ccErr2
  apply mem_ite_append
  unfold ccErr1
  rw [if_pos h]
  simp

/-- C3 witness: the concrete alignment whose row begins `AAA`. -/
theorem msa_coding_clean_no_start_witness :
    ccStartFail msaCC3 0 = true ∧
    ((msa_coding_clean msaCC3 0 1 []).1 = 1 ∧
      startMsg ∈ (msa_coding_clean msaCC3 0 1 []).2.2 ∧
      (msa_coding_clean msaCC3 0 1 []).2.1 = msaCC3) :=
  ⟨by decide, msa_coding_clean_no_start msaCC3 0 1 [] (by decide)⟩

/-- C10: `msa_coding_clean` is atomic on failure — whenever it returns a
nonzero result, the alignment (length and every row) is returned exactly
as it was; only the error string is extended. -/
theorem msa_coding_clean_atomic (msa : MSA) (refseq : Nat)
    (min_ncodons : Int) (errstr : List String)
    (h : (msa_coding_clean msa refseq min_ncodons errstr).1 ≠ 0) :
    (msa_coding_clean msa refseq min_ncodons errstr).2.1 = msa := by
  have h01 : ccRetval msa refseq min_ncodons = 0 ∨
      ccRetval msa refseq min_ncodons = 1 := by
    unfold ccRetval
    split
    · exact Or.inr rfl
    · split
      · exact Or.inr rfl
      · split
        · exact Or.inr rfl
        · exact Or.inl rfl
  have hv : (msa_coding_clean msa refseq min_ncodons errstr).1 =
      ccRetval msa refseq min_ncodons := by
    unfold msa_coding_clean
    split
    · rfl
    · rfl
  have h1 : ccRetval msa refseq min_ncodons = 1 := by
    rw [hv] at h
    rcases h01 with h0 | h1
    · exact absurd h0 h
    · exact h1
  unfold msa_coding_clean
  rw [if_neg (by simp [h1])]

/-- C10 witness: a concrete rejected alignment is returned untouched. -/
theorem msa_coding_clean_atomic_witness :
    (msa_coding_clean msaCC3 0 1 []).1 ≠ 0 ∧
    (msa_coding_clean msaCC3 0 1 []).2.1 = msaCC3 :=
  ⟨by decide, msa_coding_clean_atomic msaCC3 0 1 [] (by decide)⟩

/-- C4 counterexample to the claim as stated: in the FASTA reader (a
supported format of `msa_new_from_file`), the non-alphabetic character
`'1'` — not a gap, not missing, not in the alphabet — is kept unchanged
instead of causing a fatal format error. -/
theorem msa_file_char_fatal_cex :
    msa_read_fasta_char msaDefault '1' = '1' ∧
    readerBase msaDefault '1' = '1' ∧
    ¬ ('1' = GAP_CHAR) ∧ ¬ ('1' ∈ msaDefault.missing) ∧
    ¬ ('1' ∈ msaDefault.alphabet) ∧ ¬ '1'.isAlpha := by decide

/-- C4 (amended): in the interleaved (PHYLIP/MPM) reader, a character
that normalizes to something that is not the gap, not missing-data, not
in the alphabet and not `'.'` is remapped to `'N'` when alphabetic and is
a fatal format error when not; the FASTA reader remaps such alphabetic
characters to `'N'` but keeps non-alphabetic ones unchanged without
error. -/
theorem msa_file_char_normalization (msa : MSA) (c base : Char)
    (hbase : base = readerBase msa c)
    (hg : base ≠ GAP_CHAR) (hm : base ∉ msa.missing)
    (ha : base ∉ msa.alphabet) (hdot : base ≠ '.') :
    msa_new_from_file_char msa c =
      (if base.isAlpha then some 'N' else none) ∧
    msa_read_fasta_char msa c = (if base.isAlpha then 'N' else base) := by
  subst hbase
  constructor
  · unfold msa_new_from_file_char
    rw [if_neg (by rintro ⟨h1, _⟩; exact hdot h1)]
    rw [if_pos ⟨hg, hm, ha⟩]
  · have hds : fastaDotStep msa c = readerBase msa c := by
      unfold fastaDotStep
      rw [if_neg (by rintro ⟨h1, _⟩; exact hdot h1)]
    unfold msa_read_fasta_char
    rw [hds]
    by_cases halpha : (readerBase msa c).isAlpha
    · rw [if_pos ⟨halpha, ha⟩, if_pos halpha]
    · rw [if_neg (by rintro ⟨h1, _⟩; exact halpha h1), if_neg halpha]

/-- C4 witness: the digit `'1'` under the default alphabet — fatal in the
interleaved reader, kept in the FASTA reader. -/
theorem msa_file_char_normalization_witness :
    ('1' = readerBase msaDefault '1' ∧ '1' ≠ GAP_CHAR ∧
      '1' ∉ msaDefault.missing ∧ '1' ∉ msaDefault.alphabet ∧
      '1' ≠ '.') ∧
    (msa_new_from_file_char msaDefault '1' =
        (if '1'.isAlpha then some 'N' else none) ∧
      msa_read_fasta_char msaDefault '1' =
        (if '1'.isAlpha then 'N' else '1')) :=
  ⟨⟨by decide, by decide, by decide, by decide, by decide⟩,
    msa_file_char_normalization msaDefault '1' '1' (by decide) (by decide)
      (by decide) (by decide) (by decide)⟩

end Msa
